import Mathlib

/-!
# Polyline coordinate generator (`src/lib/utils.js`, `getPolyline`)

A shallow embedding of the single exported function of the repository and of the
fragment of the JavaScript number semantics it relies on.

Modelling conventions:

* A JavaScript number is a `JSNum`: `NaN`, `+Infinity`, `-Infinity`, or a finite value, given
  by the rational it denotes. There is a single zero (`-0` and `+0` print the same and the
  function never divides a non-zero number by zero).
* The function is embedded twice, branch for branch the same. `getPolyline` computes in exact
  arithmetic: it serves the statements that are worded in exact arithmetic and those in which
  no operation rounds. `getPolyline64` computes in binary64 arithmetic, as the language does:
  every operation rounds to nearest, ties to even, and overflows to an infinity; its inputs
  are binary64 numbers (`IsDouble`).
* `undefined` arguments are `Option.none`; a `null`/absent `data` is `none`.
* Array elements that are not finite numbers behave like `NaN` (they fail `Number.isFinite`).
-/

namespace Polyline

/-- A JavaScript number: not-a-number, an infinity, or a finite value given by the rational
it denotes. -/
inductive JSNum where
  | nan
  | posInf
  | negInf
  | fin (q : ℚ)
  deriving DecidableEq

namespace JSNum

/-- `Number.isFinite(v)`. -/
def isFinite : JSNum → Bool
  | fin _ => true
  | _ => false

/-- Unary minus. -/
def neg : JSNum → JSNum
  | nan => nan
  | posInf => negInf
  | negInf => posInf
  | fin q => fin (-q)

/-- The `+` of two numbers, exact on finite values. -/
def add : JSNum → JSNum → JSNum
  | nan, _ => nan
  | _, nan => nan
  | posInf, negInf => nan
  | negInf, posInf => nan
  | posInf, _ => posInf
  | negInf, _ => negInf
  | fin _, posInf => posInf
  | fin _, negInf => negInf
  | fin a, fin b => fin (a + b)

/-- The `-` of two numbers, exact on finite values. -/
def sub (a b : JSNum) : JSNum := add a (neg b)

/-- The `*` of two numbers, exact on finite values (an infinity times zero is `NaN`). -/
def mul : JSNum → JSNum → JSNum
  | nan, _ => nan
  | _, nan => nan
  | posInf, posInf => posInf
  | posInf, negInf => negInf
  | negInf, posInf => negInf
  | negInf, negInf => posInf
  | posInf, fin q => if q = 0 then nan else if 0 < q then posInf else negInf
  | negInf, fin q => if q = 0 then nan else if 0 < q then negInf else posInf
  | fin q, posInf => if q = 0 then nan else if 0 < q then posInf else negInf
  | fin q, negInf => if q = 0 then nan else if 0 < q then negInf else posInf
  | fin a, fin b => fin (a * b)

/-- The `/` of two numbers, exact on finite values. The zero of the model is `+0`. -/
def div : JSNum → JSNum → JSNum
  | nan, _ => nan
  | _, nan => nan
  | posInf, posInf => nan
  | posInf, negInf => nan
  | negInf, posInf => nan
  | negInf, negInf => nan
  | posInf, fin q => if 0 ≤ q then posInf else negInf
  | negInf, fin q => if 0 ≤ q then negInf else posInf
  | fin _, posInf => fin 0
  | fin _, negInf => fin 0
  | fin a, fin b =>
    if b = 0 then (if a = 0 then nan else if 0 < a then posInf else negInf)
    else fin (a / b)

/-- The `===` of two numbers. -/
def strictEq : JSNum → JSNum → Bool
  | posInf, posInf => true
  | negInf, negInf => true
  | fin a, fin b => decide (a = b)
  | _, _ => false

/-- The smaller of two numbers as `Math.min` sees them (`NaN` is contagious). -/
def min2 : JSNum → JSNum → JSNum
  | nan, _ => nan
  | _, nan => nan
  | negInf, _ => negInf
  | _, negInf => negInf
  | posInf, b => b
  | a, posInf => a
  | fin a, fin b => fin (min a b)

/-- The larger of two numbers as `Math.max` sees them (`NaN` is contagious). -/
def max2 : JSNum → JSNum → JSNum
  | nan, _ => nan
  | _, nan => nan
  | posInf, _ => posInf
  | _, posInf => posInf
  | negInf, b => b
  | a, negInf => a
  | fin a, fin b => fin (max a b)

end JSNum

open JSNum

/-- `Math.min(...args)`: `+Infinity` for no argument. -/
def mathMin (args : List JSNum) : JSNum := args.foldl min2 posInf

/-- `Math.max(...args)`: `-Infinity` for no argument. -/
def mathMax (args : List JSNum) : JSNum := args.foldl max2 negInf

/-! ## Number-to-text conversion of template literals (`Number::toString`, radix 10), for
exact values -/

/-- The `n` with `10^(n-1) ≤ a/b < 10^n`, for `0 < a` and `0 < b`, when `a < b`:
`1 - m` for the least `m` with `b ≤ a * 10^m`. -/
def smallExponent : Nat → Nat → Nat → Nat → Int
  | 0, _, _, m => 1 - (m : Int)
  | fuel + 1, a, b, m =>
    if b ≤ a * 10 ^ m then 1 - (m : Int) else smallExponent fuel a b (m + 1)

/-- The `n` with `10^(n-1) ≤ a/b < 10^n`, for `0 < a` and `0 < b`. -/
def decimalExponent (a b : Nat) : Int :=
  if b ≤ a then ((Nat.toDigits 10 (a / b)).length : Int)
  else smallExponent (Nat.log2 b + 1) a b 1

/-- Division of naturals rounded to the nearest natural. -/
def roundDiv (a b : Nat) : Nat := (2 * a + b) / (2 * b)

/-- The value `a/b` scaled to 17 significant decimal digits, given its exponent `n`. -/
def scaled17 (a b : Nat) (n : Int) : Nat :=
  if n ≤ 17 then roundDiv (a * 10 ^ (17 - n).toNat) b
  else roundDiv a (b * 10 ^ (n - 17).toNat)

/-- Drop the trailing decimal zeros of a non-zero natural. -/
def stripTrailingZeros : Nat → Nat → Nat
  | 0, s => s
  | fuel + 1, s =>
    if s % 10 = 0 ∧ s ≠ 0 then stripTrailingZeros fuel (s / 10) else s

/-- The text of the positive number `s × 10^(n-k)`, where `digits` are the `k` decimal digits
of `s`: the case analysis of `Number::toString`. -/
def renderDecimal (digits : List Char) (n : Int) : List Char :=
  let k : Int := digits.length
  if -5 ≤ n ∧ n ≤ 21 then
    if k ≤ n then digits ++ List.replicate (n - k).toNat '0'
    else if 0 < n then digits.take n.toNat ++ '.' :: digits.drop n.toNat
    else '0' :: '.' :: (List.replicate (-n).toNat '0' ++ digits)
  else
    let e := n - 1
    let sign := if e < 0 then '-' else '+'
    let expo := 'e' :: sign :: Nat.toDigits 10 e.natAbs
    if digits.length = 1 then digits ++ expo
    else digits.take 1 ++ '.' :: (digits.drop 1 ++ expo)

/-- The text of the positive rational `a/b`. Its digits are the value rounded to 17
significant decimal digits (the most a binary64 value needs), trailing zeros dropped. -/
def positiveToChars (a b : Nat) : List Char :=
  let n := decimalExponent a b
  let s := scaled17 a b n
  let n := if s = 10 ^ 17 then n + 1 else n
  renderDecimal (Nat.toDigits 10 (stripTrailingZeros 17 s)) n

/-- The characters of `Number::toString(v)`. -/
def numberToChars : JSNum → List Char
  | nan => "NaN".data
  | posInf => "Infinity".data
  | negInf => "-Infinity".data
  | fin q =>
    if q = 0 then ['0']
    else if q < 0 then '-' :: positiveToChars q.num.natAbs q.den
    else positiveToChars q.num.natAbs q.den

/-- The text a template literal substitutes for a number: `Number::toString`. -/
def numberToString (v : JSNum) : String := String.mk (numberToChars v)

/-! ## The function in exact arithmetic -/

/-- Lines 12-21: the bounds derived from the finite samples. -/
def derivedBounds (data : List JSNum) : JSNum × JSNum :=
  let validData := data.filter isFinite
  let mm : JSNum × JSNum :=
    if validData.length = 0 then (fin 0, fin 100)
    else (mathMin validData, mathMax validData)
  if strictEq mm.1 mm.2 then (sub mm.1 (fin 1), add mm.2 (fin 1)) else mm

/-- Lines 7-22: the bounds `(min, max)` the scaling uses. Both are derived from the data
as soon as one of `minVal`, `maxVal` is `undefined`. -/
def effectiveBounds (data : List JSNum) (minVal maxVal : Option JSNum) : JSNum × JSNum :=
  match minVal, maxVal with
  | some min, some max => (min, max)
  | _, _ => derivedBounds data

/-- Lines 30-31: the vertical coordinate of a finite sample. -/
def scaleY (height min max : JSNum) (val : JSNum) : JSNum :=
  let range := sub max min
  let clampedVal := mathMax [min, mathMin [max, val]]
  sub height (mul (div (sub clampedVal min) range) height)

/-- Lines 26-32: the coordinates the callback of `data.map` computes for sample `val` at
index `i`. -/
def mapPoint (step height min max : JSNum) (i : Nat) (val : JSNum) : JSNum × JSNum :=
  if !isFinite val then (mul (fin i) step, height)
  else
    let x := mul (fin i) step
    let y := scaleY height min max val
    (x, y)

/-- Line 5: `width / (data.length - 1)` with `width = 100`. -/
def stepOf (data : List JSNum) : JSNum :=
  let width := fin 100
  div width (sub (fin data.length) (fin 1))

/-- Lines 4-32 for an array `data`: the list of coordinate pairs, before they are rendered
as text. -/
def polylinePoints (data : List JSNum) (height : JSNum) (minVal maxVal : Option JSNum) :
    List (JSNum × JSNum) :=
  let step := stepOf data
  let b := effectiveBounds data minVal maxVal
  data.mapIdx (fun i val => mapPoint step height b.1 b.2 i val)

/-- The template literal with the two coordinates: x, a comma, y. -/
def pointString (p : JSNum × JSNum) : String :=
  numberToString p.1 ++ "," ++ numberToString p.2

/-- The exported function `getPolyline(data, height, minVal, maxVal)`. -/
def getPolyline (data : Option (List JSNum)) (height : JSNum) (minVal maxVal : Option JSNum) :
    String :=
  match data with
  | none => ""
  | some d =>
    if d.length < 2 then ""
    else " ".intercalate ((polylinePoints d height minVal maxVal).map pointString)

/-- A piece of text with neither a space nor a comma in it. -/
def Clean (l : List Char) : Prop := ∀ c ∈ l, c ≠ ' ' ∧ c ≠ ','

/-! ## Notions the statements use -/

/-- The `<=` of two numbers (false as soon as one is `NaN`). -/
def JSNum.le : JSNum → JSNum → Bool
  | nan, _ => false
  | _, nan => false
  | negInf, _ => true
  | _, posInf => true
  | posInf, _ => false
  | _, negInf => false
  | fin a, fin b => decide (a ≤ b)

/-- The `<` of two numbers (false as soon as one is `NaN`). -/
def JSNum.lt : JSNum → JSNum → Bool
  | nan, _ => false
  | _, nan => false
  | posInf, _ => false
  | _, negInf => false
  | negInf, _ => true
  | _, posInf => true
  | fin a, fin b => decide (a < b)

/-- The change of unit and offset `v ↦ a * v + b` on a sample; samples that are not finite
are left as they are. -/
def rescale (a b : ℚ) : JSNum → JSNum
  | fin q => fin (a * q + b)
  | v => v

/-! ## Binary64 arithmetic

The numbers of the language are binary64: every arithmetic result is the exact result rounded
to the nearest binary64 number, ties to even, and to an infinity beyond the range. -/

/-- The integer part of the binary logarithm of a positive natural, by halving. -/
def log2Fuel : Nat → Nat → Nat
  | 0, _ => 0
  | fuel + 1, n => if n < 2 then 0 else log2Fuel fuel (n / 2) + 1

/-- The `k` with `2^k ≤ x < 2^(k+1)`, for a positive rational `x`. -/
def floorLog2 (x : ℚ) : ℤ :=
  let k : ℤ := (log2Fuel x.num.natAbs x.num.natAbs : ℤ) - (log2Fuel x.den x.den : ℤ)
  if (2 : ℚ) ^ k ≤ x then k else k - 1

/-- Rounding to the nearest integer, ties to the even one. -/
def roundHalfEven (y : ℚ) : ℤ :=
  if y - ⌊y⌋ < 1 / 2 then ⌊y⌋
  else if 1 / 2 < y - ⌊y⌋ then ⌊y⌋ + 1
  else if ⌊y⌋ % 2 = 0 then ⌊y⌋ else ⌊y⌋ + 1

/-- The exponent of the unit in the last place of the binary64 numbers around `x > 0`:
53 significant bits, and the fixed exponent `-1074` below `2^(-1022)`. -/
def ulpExp (x : ℚ) : ℤ := max (floorLog2 x) (-1022) - 52

/-- A non-negative rational rounded to the nearest multiple of its unit in the last place,
ties to even; the result may exceed the binary64 range. -/
def roundPos (x : ℚ) : ℚ := (roundHalfEven (x / (2 : ℚ) ^ ulpExp x) : ℚ) * (2 : ℚ) ^ ulpExp x

/-- The binary64 number nearest to an exact result (round to nearest, ties to even), an
infinity when the rounded magnitude reaches `2^1024`. -/
def round64 (x : ℚ) : JSNum :=
  if 0 ≤ x then (if (2 : ℚ) ^ (1024 : ℤ) ≤ roundPos x then posInf else fin (roundPos x))
  else (if (2 : ℚ) ^ (1024 : ℤ) ≤ roundPos (-x) then negInf else fin (-(roundPos (-x))))

/-- A rational that is a binary64 number: rounding leaves it as it is. -/
def IsDouble (q : ℚ) : Prop := round64 q = fin q

instance (q : ℚ) : Decidable (IsDouble q) := by unfold IsDouble; infer_instance

/-- The `+` of two binary64 numbers. -/
def JSNum.add64 : JSNum → JSNum → JSNum
  | fin a, fin b => round64 (a + b)
  | a, b => JSNum.add a b

/-- The `-` of two binary64 numbers. -/
def JSNum.sub64 : JSNum → JSNum → JSNum
  | fin a, fin b => round64 (a - b)
  | a, b => JSNum.sub a b

/-- The `*` of two binary64 numbers. -/
def JSNum.mul64 : JSNum → JSNum → JSNum
  | fin a, fin b => round64 (a * b)
  | a, b => JSNum.mul a b

/-- The `/` of two binary64 numbers. -/
def JSNum.div64 : JSNum → JSNum → JSNum
  | fin a, fin b => if b = 0 then JSNum.div (fin a) (fin b) else round64 (a / b)
  | a, b => JSNum.div a b

/-! ## Number-to-text conversion of binary64 numbers

`Number::toString` prints the fewest decimal digits that read back as the same binary64
number, and of those the decimal closest to it. -/

/-- The `n` with `10^(n-1) ≤ a/b < 10^n`, for `0 < a` and `0 < b`. -/
def decimalExponent64 (a b : Nat) : Int :=
  if b ≤ a then ((Nat.toDigits 10 (a / b)).length : Int)
  else smallExponent (4 * (log2Fuel b b + 1)) a b 1

/-- Whether the decimal `s × 10^e` reads back as the binary64 number `q`. -/
def readsBack (q : ℚ) (s e : ℤ) : Bool := decide (round64 ((s : ℚ) * (10 : ℚ) ^ e) = fin q)

/-- The shortest decimal `s × 10^(n-k)` that reads back as `q > 0`, searched from `k` digits
on (`fuel` more lengths to try), where `10^(n-1) ≤ q < 10^n`; the nearest decimal of the last
length when none reads back. The result is `s` and its exponent. -/
def shortestDecimal (q : ℚ) (n : ℤ) : Nat → Nat → ℤ × ℤ
  | 0, k => (roundHalfEven (q / (10 : ℚ) ^ (n - k)), n - k)
  | fuel + 1, k =>
    let e : ℤ := n - k
    let y : ℚ := q / (10 : ℚ) ^ e
    let lo : ℤ := ⌊y⌋
    let hi : ℤ := lo + 1
    if readsBack q lo e ∧ readsBack q hi e then
      (if y - lo ≤ hi - y then (lo, e) else (hi, e))
    else if readsBack q lo e then (lo, e)
    else if readsBack q hi e then (hi, e)
    else shortestDecimal q n fuel (k + 1)

/-- The text of the positive binary64 number `q`. -/
def positiveToChars64 (q : ℚ) : List Char :=
  let n := decimalExponent64 q.num.natAbs q.den
  let se := shortestDecimal q n 16 1
  let s := se.1.toNat
  renderDecimal (Nat.toDigits 10 (stripTrailingZeros 17 s))
    (((Nat.toDigits 10 s).length : ℤ) + se.2)

/-- The characters of `Number::toString(v)` for a binary64 number. -/
def numberToChars64 : JSNum → List Char
  | nan => "NaN".data
  | posInf => "Infinity".data
  | negInf => "-Infinity".data
  | fin q =>
    if q = 0 then ['0']
    else if q < 0 then '-' :: positiveToChars64 (-q)
    else positiveToChars64 q

/-- The text a template literal substitutes for a binary64 number. -/
def numberToString64 (v : JSNum) : String := String.mk (numberToChars64 v)

/-! ## The function in binary64 arithmetic -/

/-- Lines 12-21 in binary64: the `+= 1` and `-= 1` of line 21 round. -/
def derivedBounds64 (data : List JSNum) : JSNum × JSNum :=
  let validData := data.filter isFinite
  let mm : JSNum × JSNum :=
    if validData.length = 0 then (fin 0, fin 100)
    else (mathMin validData, mathMax validData)
  if strictEq mm.1 mm.2 then (sub64 mm.1 (fin 1), add64 mm.2 (fin 1)) else mm

/-- Lines 7-22 in binary64. -/
def effectiveBounds64 (data : List JSNum) (minVal maxVal : Option JSNum) : JSNum × JSNum :=
  match minVal, maxVal with
  | some min, some max => (min, max)
  | _, _ => derivedBounds64 data

/-- Lines 24 and 30-31 in binary64: each of the five operations rounds. -/
def scaleY64 (height min max : JSNum) (val : JSNum) : JSNum :=
  let range := sub64 max min
  let clampedVal := mathMax [min, mathMin [max, val]]
  sub64 height (mul64 (div64 (sub64 clampedVal min) range) height)

/-- Lines 26-32 in binary64. -/
def mapPoint64 (step height min max : JSNum) (i : Nat) (val : JSNum) : JSNum × JSNum :=
  if !isFinite val then (mul64 (fin i) step, height)
  else
    let x := mul64 (fin i) step
    let y := scaleY64 height min max val
    (x, y)

/-- Line 5 in binary64. -/
def stepOf64 (data : List JSNum) : JSNum :=
  let width := fin 100
  div64 width (sub64 (fin data.length) (fin 1))

/-- Lines 4-32 in binary64, for an array `data`. -/
def polylinePoints64 (data : List JSNum) (height : JSNum) (minVal maxVal : Option JSNum) :
    List (JSNum × JSNum) :=
  let step := stepOf64 data
  let b := effectiveBounds64 data minVal maxVal
  data.mapIdx (fun i val => mapPoint64 step height b.1 b.2 i val)

/-- The template literal in binary64: x, a comma, y. -/
def pointString64 (p : JSNum × JSNum) : String :=
  numberToString64 p.1 ++ "," ++ numberToString64 p.2

/-- The exported function in binary64 arithmetic. -/
def getPolyline64 (data : Option (List JSNum)) (height : JSNum) (minVal maxVal : Option JSNum) :
    String :=
  match data with
  | none => ""
  | some d =>
    if d.length < 2 then ""
    else " ".intercalate ((polylinePoints64 d height minVal maxVal).map pointString64)

/-! ## The function with the errors the language raises

Reading a property of `null`/`undefined` raises a TypeError. A call that spreads an array
into its arguments, as `Math.min(...validData)` does, raises a RangeError when the array has
more elements than the engine accepts as arguments; that bound, `maxArgs`, depends on the
engine and is a parameter here. -/

/-- The errors the function can raise. -/
inductive Fault where
  | typeError
  | rangeError
  deriving DecidableEq

/-- Reading a property of `data` (`data.length`, `data.filter`, `data.map`): a TypeError when
`data` is `null` or `undefined`. -/
def arrayOf (data : Option (List JSNum)) : Except Fault (List JSNum) :=
  match data with
  | none => Except.error Fault.typeError
  | some d => Except.ok d

/-- The spread call `Math.min(...args)`. -/
def mathMinSpread (maxArgs : Nat) (args : List JSNum) : Except Fault JSNum :=
  if maxArgs < args.length then Except.error Fault.rangeError else Except.ok (mathMin args)

/-- The spread call `Math.max(...args)`. -/
def mathMaxSpread (maxArgs : Nat) (args : List JSNum) : Except Fault JSNum :=
  if maxArgs < args.length then Except.error Fault.rangeError else Except.ok (mathMax args)

/-- Lines 7-22 with the two spread calls. -/
def boundsChecked (maxArgs : Nat) (data : List JSNum) (minVal maxVal : Option JSNum) :
    Except Fault (JSNum × JSNum) :=
  match minVal, maxVal with
  | some min, some max => Except.ok (min, max)
  | _, _ => do
    let validData := data.filter isFinite
    let mm : JSNum × JSNum ←
      if validData.length = 0 then Except.ok (fin 0, fin 100)
      else do
        let lo ← mathMinSpread maxArgs validData
        let hi ← mathMaxSpread maxArgs validData
        Except.ok (lo, hi)
    Except.ok (if strictEq mm.1 mm.2 then (sub64 mm.1 (fin 1), add64 mm.2 (fin 1)) else mm)

/-- The whole function with the errors it can raise: the test of line 2 reads `data.length`
only when `data` is not `null`/`undefined`. -/
def getPolylineChecked (maxArgs : Nat) (data : Option (List JSNum)) (height : JSNum)
    (minVal maxVal : Option JSNum) : Except Fault String := do
  let short : Bool ←
    if data.isNone then Except.ok true
    else do
      let d ← arrayOf data
      Except.ok (decide (d.length < 2))
  if short then Except.ok ""
  else do
    let d ← arrayOf data
    let step := stepOf64 d
    let b ← boundsChecked maxArgs d minVal maxVal
    Except.ok (" ".intercalate
      ((d.mapIdx (fun i val => mapPoint64 step height b.1 b.2 i val)).map pointString64))


/-- The clamped sample as a fraction of the range, as lines 24 and 30-31 compute it in
binary64 for finite bounds: three roundings. -/
def fraction64 (lo hi v : ℚ) : ℚ :=
  roundPos (roundPos (max lo (min hi v) - lo) / roundPos (hi - lo))

/-- The `y` of line 31 in binary64 for finite bounds and a finite height: two more
roundings. -/
def yOf64 (h lo hi v : ℚ) : ℚ := roundPos (h - roundPos (fraction64 lo hi v * h))

/-! ## Facts about the number-to-text conversion -/

theorem clean_nil : Clean [] := by
  intro c hc; cases hc

theorem clean_cons {c : Char} {l : List Char} (hc : c ≠ ' ' ∧ c ≠ ',') (hl : Clean l) :
    Clean (c :: l) := by
  intro d hd
  rcases List.mem_cons.1 hd with rfl | hd
  · exact hc
  · exact hl d hd

theorem clean_append {l₁ l₂ : List Char} (h₁ : Clean l₁) (h₂ : Clean l₂) :
    Clean (l₁ ++ l₂) := by
  intro d hd
  rcases List.mem_append.1 hd with hd | hd
  · exact h₁ d hd
  · exact h₂ d hd

theorem clean_take {l : List Char} (n : Nat) (h : Clean l) : Clean (l.take n) :=
  fun c hc => h c (List.mem_of_mem_take hc)

theorem clean_drop {l : List Char} (n : Nat) (h : Clean l) : Clean (l.drop n) :=
  fun c hc => h c (List.mem_of_mem_drop hc)

theorem clean_replicate_zero (n : Nat) : Clean (List.replicate n '0') := by
  intro c hc
  rw [(List.mem_replicate.1 hc).2]
  exact ⟨by decide, by decide⟩

theorem digitChar_clean (n : Nat) :
    Nat.digitChar (n % 10) ≠ ' ' ∧ Nat.digitChar (n % 10) ≠ ',' := by
  have h : n % 10 < 10 := Nat.mod_lt _ (by decide)
  generalize n % 10 = d at h
  interval_cases d <;> exact ⟨by decide, by decide⟩

theorem toDigitsCore_clean (fuel : Nat) :
    ∀ (n : Nat) (ds : List Char), Clean ds → Clean (Nat.toDigitsCore 10 fuel n ds) := by
  induction fuel with
  | zero => intro n ds h; simpa [Nat.toDigitsCore] using h
  | succ f ih =>
    intro n ds h
    simp only [Nat.toDigitsCore]
    split_ifs
    · exact clean_cons (digitChar_clean _) h
    · exact ih _ _ (clean_cons (digitChar_clean _) h)

theorem toDigits_clean (n : Nat) : Clean (Nat.toDigits 10 n) :=
  toDigitsCore_clean _ _ _ clean_nil

theorem toDigitsCore_ne_nil (fuel : Nat) :
    ∀ (n : Nat) (ds : List Char), ds ≠ [] → Nat.toDigitsCore 10 fuel n ds ≠ [] := by
  induction fuel with
  | zero => intro n ds h; simpa [Nat.toDigitsCore] using h
  | succ f ih =>
    intro n ds h
    simp only [Nat.toDigitsCore]
    split_ifs
    · simp
    · exact ih _ _ (by simp)

theorem toDigits_ne_nil (n : Nat) : Nat.toDigits 10 n ≠ [] := by
  unfold Nat.toDigits
  simp only [Nat.toDigitsCore]
  split_ifs
  · simp
  · exact toDigitsCore_ne_nil _ _ _ (by simp)

theorem renderDecimal_clean (digits : List Char) (n : Int) (h : Clean digits) :
    Clean (renderDecimal digits n) := by
  have hdot : ('.' : Char) ≠ ' ' ∧ ('.' : Char) ≠ ',' := ⟨by decide, by decide⟩
  have hzero : ('0' : Char) ≠ ' ' ∧ ('0' : Char) ≠ ',' := ⟨by decide, by decide⟩
  have hexpo : ∀ s : Char, s = '-' ∨ s = '+' →
      Clean ('e' :: s :: Nat.toDigits 10 (n - 1).natAbs) := by
    intro s hs
    refine clean_cons ⟨by decide, by decide⟩ (clean_cons ?_ (toDigits_clean _))
    rcases hs with rfl | rfl <;> exact ⟨by decide, by decide⟩
  unfold renderDecimal
  simp only
  split_ifs
  · exact clean_append h (clean_replicate_zero _)
  · exact clean_append (clean_take _ h) (clean_cons hdot (clean_drop _ h))
  · exact clean_cons hzero (clean_cons hdot (clean_append (clean_replicate_zero _) h))
  · exact clean_append h (hexpo _ (Or.inl rfl))
  · exact clean_append h (hexpo _ (Or.inr rfl))
  · exact clean_append (clean_take _ h)
      (clean_cons hdot (clean_append (clean_drop _ h) (hexpo _ (Or.inl rfl))))
  · exact clean_append (clean_take _ h)
      (clean_cons hdot (clean_append (clean_drop _ h) (hexpo _ (Or.inr rfl))))

theorem renderDecimal_ne_nil (digits : List Char) (n : Int) (h : digits ≠ []) :
    renderDecimal digits n ≠ [] := by
  unfold renderDecimal
  simp only
  split_ifs <;> simp [h]

theorem positiveToChars_clean (a b : Nat) : Clean (positiveToChars a b) :=
  renderDecimal_clean _ _ (toDigits_clean _)

theorem positiveToChars_ne_nil (a b : Nat) : positiveToChars a b ≠ [] :=
  renderDecimal_ne_nil _ _ (toDigits_ne_nil _)

theorem numberToChars_clean (v : JSNum) : Clean (numberToChars v) := by
  cases v with
  | nan => intro c hc; revert c; decide
  | posInf => intro c hc; revert c; decide
  | negInf => intro c hc; revert c; decide
  | fin q =>
    simp only [numberToChars]
    split_ifs
    · exact clean_cons ⟨by decide, by decide⟩ clean_nil
    · exact clean_cons ⟨by decide, by decide⟩ (positiveToChars_clean _ _)
    · exact positiveToChars_clean _ _

theorem numberToChars_ne_nil (v : JSNum) : numberToChars v ≠ [] := by
  cases v with
  | nan => decide
  | posInf => decide
  | negInf => decide
  | fin q =>
    simp only [numberToChars]
    split_ifs
    · simp
    · simp
    · exact positiveToChars_ne_nil _ _


/-! ## Facts about joining text -/

theorem intercalate_go_data (s : String) :
    ∀ (l : List String) (acc : String),
      (String.intercalate.go acc s l).data
        = acc.data ++ (l.map (fun a => s.data ++ a.data)).flatten := by
  intro l
  induction l with
  | nil => intro acc; simp [String.intercalate.go]
  | cons a as ih =>
    intro acc
    simp [String.intercalate.go, ih, String.data_append, List.append_assoc]

theorem intercalate_data (s : String) (l : List String) :
    (s.intercalate l).data = s.data.intercalate (l.map String.data) := by
  cases l with
  | nil => rfl
  | cons a as =>
    simp only [String.intercalate, intercalate_go_data]
    induction as generalizing a with
    | nil => simp [List.intercalate]
    | cons b bs ih =>
      have := ih b
      simp [List.intercalate, List.intersperse] at this ⊢
      simp [this]

/-- The characters of a rendered pair. -/
theorem pointString_data (p : JSNum × JSNum) :
    (pointString p).data = [','].intercalate [numberToChars p.1, numberToChars p.2] := by
  simp [pointString, numberToString, String.data_append, List.intercalate]

theorem space_not_mem_pointString (p : JSNum × JSNum) : ' ' ∉ (pointString p).data := by
  rw [pointString_data]
  simp only [List.intercalate, List.intersperse, List.flatten, List.append_nil, List.mem_append,
    List.mem_singleton]
  rintro (h | h | h)
  · exact (numberToChars_clean _ _ h).1 rfl
  · exact absurd h (by decide)
  · exact (numberToChars_clean _ _ h).1 rfl


theorem count_intercalate_sep (c : Char) :
    ∀ ls : List (List Char), (∀ l ∈ ls, c ∉ l) → ([c].intercalate ls).count c = ls.length - 1 := by
  intro ls
  induction ls with
  | nil => intro _; rfl
  | cons a as ih =>
    intro h
    have ha : a.count c = 0 := List.count_eq_zero.2 (h a (List.mem_cons_self _ _))
    cases as with
    | nil => simpa [List.intercalate] using ha
    | cons b bs =>
      have hb := ih (fun l hl => h l (List.mem_cons_of_mem _ hl))
      simp only [List.intercalate, List.intersperse, List.flatten, List.count_append,
        List.length_cons] at hb ⊢
      rw [hb, ha]
      simp
      omega

/-! ## The claims -/

/-- C1: for every height and every choice of bounds, the result is the empty string when the
sample sequence is absent (null), empty, or has exactly one element. -/
theorem getPolyline_short_is_empty (height : JSNum) (minVal maxVal : Option JSNum) :
    getPolyline none height minVal maxVal = ""
    ∧ getPolyline (some []) height minVal maxVal = ""
    ∧ ∀ v : JSNum, getPolyline (some [v]) height minVal maxVal = "" := by
  refine ⟨rfl, rfl, fun v => rfl⟩

/-- C2: for a sequence of `n ≥ 2` samples the output, cut at its spaces, is exactly the list
of the `n` rendered pairs, one per sample and in input order; each pair, cut at its comma, is
the text of its x followed by the text of its y; and the output has exactly `n - 1` spaces. -/
theorem getPolyline_pairs (data : List JSNum) (height : JSNum) (minVal maxVal : Option JSNum)
    (hlen : 2 ≤ data.length) :
    (polylinePoints data height minVal maxVal).length = data.length
    ∧ (∀ i : Nat, (polylinePoints data height minVal maxVal)[i]? =
        (data[i]?).map (mapPoint (stepOf data) height
          (effectiveBounds data minVal maxVal).1 (effectiveBounds data minVal maxVal).2 i))
    ∧ (getPolyline (some data) height minVal maxVal).data.splitOn ' ' =
        (polylinePoints data height minVal maxVal).map (fun p => (pointString p).data)
    ∧ (∀ p : JSNum × JSNum,
        (pointString p).data.splitOn ',' = [numberToChars p.1, numberToChars p.2])
    ∧ (getPolyline (some data) height minVal maxVal).data.count ' ' = data.length - 1 := by
  have hne : polylinePoints data height minVal maxVal ≠ [] := by
    intro h
    have h2 : (polylinePoints data height minVal maxVal).length = data.length := by
      simp [polylinePoints]
    rw [h] at h2
    simp at h2
    omega
  have hout : (getPolyline (some data) height minVal maxVal).data =
      [' '].intercalate ((polylinePoints data height minVal maxVal).map
        (fun p => (pointString p).data)) := by
    have : ¬ data.length < 2 := by omega
    simp only [getPolyline, this, if_false, intercalate_data, List.map_map]
    rfl
  refine ⟨by simp [polylinePoints], ?_, ?_, ?_, ?_⟩
  · intro i
    simp [polylinePoints]
  · rw [hout]
    apply List.splitOn_intercalate
    · intro l hl
      obtain ⟨p, _, rfl⟩ := List.mem_map.1 hl
      exact space_not_mem_pointString p
    · simpa using hne
  · intro p
    rw [pointString_data]
    apply List.splitOn_intercalate
    · intro l hl
      simp only [List.mem_cons, List.mem_singleton, List.not_mem_nil, or_false] at hl
      rcases hl with rfl | rfl
      · exact fun h => (numberToChars_clean _ _ h).2 rfl
      · exact fun h => (numberToChars_clean _ _ h).2 rfl
    · simp
  · rw [hout, count_intercalate_sep]
    · simp [polylinePoints]
    · intro l hl
      obtain ⟨p, _, rfl⟩ := List.mem_map.1 hl
      exact space_not_mem_pointString p

/-- A three-sample instance, with a NaN in the middle. -/
theorem getPolyline_pairs_witness :
    (polylinePoints [fin 1, nan, fin 3] (fin 20) (some (fin 0)) (some (fin 10))).length = 3
    ∧ (getPolyline (some [fin 1, nan, fin 3]) (fin 20) (some (fin 0)) (some (fin 10))).data.count ' '
        = 2 :=
  ⟨(getPolyline_pairs [fin 1, nan, fin 3] (fin 20) (some (fin 0)) (some (fin 10)) (by decide)).1,
   (getPolyline_pairs [fin 1, nan, fin 3] (fin 20) (some (fin 0)) (some (fin 10))
      (by decide)).2.2.2.2⟩


/-! ## Facts about the coordinates -/

theorem stepOf_eq (data : List JSNum) (hlen : 2 ≤ data.length) :
    stepOf data = fin (100 / ((data.length : ℚ) - 1)) := by
  have h2 : (2 : ℚ) ≤ (data.length : ℚ) := by exact_mod_cast hlen
  have hne : ((data.length : ℚ) + -1) ≠ 0 := by linarith
  simp [stepOf, JSNum.sub, JSNum.neg, JSNum.add, JSNum.div, hne, sub_eq_add_neg]

theorem mapPoint_fst (step height min max : JSNum) (i : Nat) (val : JSNum) :
    (mapPoint step height min max i val).1 = mul (fin i) step := by
  unfold mapPoint
  split_ifs <;> rfl

theorem mapPoint_snd_fin (step height min max : JSNum) (i : Nat) (q : ℚ) :
    (mapPoint step height min max i (fin q)).2 = scaleY height min max (fin q) := by
  simp [mapPoint, isFinite]

theorem mapPoint_not_finite (step height min max : JSNum) (i : Nat) (val : JSNum)
    (h : isFinite val = false) :
    mapPoint step height min max i val = (mul (fin i) step, height) := by
  simp [mapPoint, h]

theorem polylinePoints_getElem? (data : List JSNum) (height : JSNum)
    (minVal maxVal : Option JSNum) (i : Nat) :
    (polylinePoints data height minVal maxVal)[i]? =
      (data[i]?).map (mapPoint (stepOf data) height
        (effectiveBounds data minVal maxVal).1 (effectiveBounds data minVal maxVal).2 i) := by
  simp [polylinePoints]

/-- C3: for `n ≥ 2` samples the first pair has x-coordinate `0` and the last pair has
x-coordinate `100`, whatever the samples are; they are rendered as the texts 0 and 100. -/
theorem first_x_zero_last_x_hundred (data : List JSNum) (height : JSNum)
    (minVal maxVal : Option JSNum) (hlen : 2 ≤ data.length) :
    ((polylinePoints data height minVal maxVal).head?).map Prod.fst = some (fin 0)
    ∧ ((polylinePoints data height minVal maxVal).getLast?).map Prod.fst = some (fin 100)
    ∧ numberToString (fin 0) = "0" ∧ numberToString (fin 100) = "100" := by
  have h2 : (2 : ℚ) ≤ (data.length : ℚ) := by exact_mod_cast hlen
  have hne : ((data.length : ℚ) - 1) ≠ 0 := by linarith
  have hcast : ((data.length - 1 : ℕ) : ℚ) = (data.length : ℚ) - 1 := by
    rw [Nat.cast_sub (by omega)]; simp
  refine ⟨?_, ?_, by with_unfolding_all decide, by with_unfolding_all decide⟩
  · obtain ⟨a, rest, rfl⟩ : ∃ a rest, data = a :: rest := by
      cases data with
      | nil => simp at hlen
      | cons a rest => exact ⟨a, rest, rfl⟩
    simp only [polylinePoints, List.head?_mapIdx, List.head?_cons, Option.map_some',
      mapPoint_fst, stepOf_eq _ hlen]
    simp [JSNum.mul]
  · have hl : data.getLast? = some (data.getLast (by intro h; simp [h] at hlen)) :=
      List.getLast?_eq_getLast _ _
    simp only [polylinePoints, List.getLast?_mapIdx, hl, Option.map_some', mapPoint_fst,
      stepOf_eq _ hlen]
    simp only [JSNum.mul, hcast]
    congr 2
    field_simp

/-- A two-sample instance whose first sample is not finite. -/
theorem first_x_zero_last_x_hundred_witness :
    2 ≤ [nan, fin 7].length
    ∧ ((polylinePoints [nan, fin 7] (fin 10) none none).head?).map Prod.fst = some (fin 0)
    ∧ ((polylinePoints [nan, fin 7] (fin 10) none none).getLast?).map Prod.fst
        = some (fin 100) :=
  ⟨by decide,
   (first_x_zero_last_x_hundred [nan, fin 7] (fin 10) none none (by decide)).1,
   (first_x_zero_last_x_hundred [nan, fin 7] (fin 10) none none (by decide)).2.1⟩


/-! ## Facts about the bounds -/

theorem isFinite_eq_true_iff (v : JSNum) : isFinite v = true ↔ ∃ q, v = fin q := by
  cases v <;> simp [isFinite]

theorem foldl_min2_fin (l : List JSNum) (hl : ∀ v ∈ l, isFinite v = true) :
    ∀ a : ℚ, ∃ m : ℚ, l.foldl min2 (fin a) = fin m ∧ (m = a ∨ fin m ∈ l) ∧ m ≤ a
      ∧ ∀ q, fin q ∈ l → m ≤ q := by
  induction l with
  | nil => intro a; exact ⟨a, rfl, Or.inl rfl, le_refl _, by simp⟩
  | cons x xs ih =>
    intro a
    obtain ⟨q, rfl⟩ := (isFinite_eq_true_iff x).1 (hl x (List.mem_cons_self _ _))
    obtain ⟨m, hm, hmem, hle, hall⟩ :=
      ih (fun v hv => hl v (List.mem_cons_of_mem _ hv)) (min a q)
    refine ⟨m, by simpa [List.foldl, min2] using hm, ?_, le_trans hle (min_le_left _ _), ?_⟩
    · rcases hmem with h | h
      · rcases min_choice a q with h' | h'
        · left; rw [h, h']
        · right; rw [h, h']; exact List.mem_cons_self _ _
      · right; exact List.mem_cons_of_mem _ h
    · intro r hr
      rcases List.mem_cons.1 hr with h | h
      · injection h with h
        rw [h]
        exact le_trans hle (min_le_right _ _)
      · exact hall r h

theorem foldl_max2_fin (l : List JSNum) (hl : ∀ v ∈ l, isFinite v = true) :
    ∀ a : ℚ, ∃ m : ℚ, l.foldl max2 (fin a) = fin m ∧ (m = a ∨ fin m ∈ l) ∧ a ≤ m
      ∧ ∀ q, fin q ∈ l → q ≤ m := by
  induction l with
  | nil => intro a; exact ⟨a, rfl, Or.inl rfl, le_refl _, by simp⟩
  | cons x xs ih =>
    intro a
    obtain ⟨q, rfl⟩ := (isFinite_eq_true_iff x).1 (hl x (List.mem_cons_self _ _))
    obtain ⟨m, hm, hmem, hle, hall⟩ :=
      ih (fun v hv => hl v (List.mem_cons_of_mem _ hv)) (max a q)
    refine ⟨m, by simpa [List.foldl, max2] using hm, ?_, le_trans (le_max_left _ _) hle, ?_⟩
    · rcases hmem with h | h
      · rcases max_choice a q with h' | h'
        · left; rw [h, h']
        · right; rw [h, h']; exact List.mem_cons_self _ _
      · right; exact List.mem_cons_of_mem _ h
    · intro r hr
      rcases List.mem_cons.1 hr with h | h
      · injection h with h
        rw [h]
        exact le_trans (le_max_right _ _) hle
      · exact hall r h

/-- The minimum `Math.min` finds in a non-empty list of finite numbers is its least element. -/
theorem mathMin_finite (l : List JSNum) (hl : ∀ v ∈ l, isFinite v = true) (hne : l ≠ []) :
    ∃ m : ℚ, mathMin l = fin m ∧ fin m ∈ l ∧ ∀ q, fin q ∈ l → m ≤ q := by
  cases l with
  | nil => exact absurd rfl hne
  | cons x xs =>
    obtain ⟨q, rfl⟩ := (isFinite_eq_true_iff x).1 (hl x (List.mem_cons_self _ _))
    obtain ⟨m, hm, hmem, hle, hall⟩ :=
      foldl_min2_fin xs (fun v hv => hl v (List.mem_cons_of_mem _ hv)) q
    refine ⟨m, by simpa [mathMin, List.foldl, min2] using hm, ?_, ?_⟩
    · rcases hmem with h | h
      · rw [h]; exact List.mem_cons_self _ _
      · exact List.mem_cons_of_mem _ h
    · intro r hr
      rcases List.mem_cons.1 hr with h | h
      · injection h with h
        rw [h]; exact hle
      · exact hall r h

/-- The maximum `Math.max` finds in a non-empty list of finite numbers is its greatest
element. -/
theorem mathMax_finite (l : List JSNum) (hl : ∀ v ∈ l, isFinite v = true) (hne : l ≠ []) :
    ∃ m : ℚ, mathMax l = fin m ∧ fin m ∈ l ∧ ∀ q, fin q ∈ l → q ≤ m := by
  cases l with
  | nil => exact absurd rfl hne
  | cons x xs =>
    obtain ⟨q, rfl⟩ := (isFinite_eq_true_iff x).1 (hl x (List.mem_cons_self _ _))
    obtain ⟨m, hm, hmem, hle, hall⟩ :=
      foldl_max2_fin xs (fun v hv => hl v (List.mem_cons_of_mem _ hv)) q
    refine ⟨m, by simpa [mathMax, List.foldl, max2] using hm, ?_, ?_⟩
    · rcases hmem with h | h
      · rw [h]; exact List.mem_cons_self _ _
      · exact List.mem_cons_of_mem _ h
    · intro r hr
      rcases List.mem_cons.1 hr with h | h
      · injection h with h
        rw [h]; exact hle
      · exact hall r h

theorem fin_mem_filter (data : List JSNum) (q : ℚ) :
    fin q ∈ data.filter isFinite ↔ fin q ∈ data := by
  simp [List.mem_filter, isFinite]

/-- The derived bounds, case by case. -/
theorem derivedBounds_spec (data : List JSNum) :
    ∃ lo hi : ℚ, derivedBounds data = (fin lo, fin hi) ∧ lo < hi
      ∧ ((∀ v ∈ data, isFinite v = false) → lo = 0 ∧ hi = 100)
      ∧ (∀ m M : ℚ, fin m ∈ data → (∀ q, fin q ∈ data → m ≤ q) →
          fin M ∈ data → (∀ q, fin q ∈ data → q ≤ M) →
          (m = M → lo = m - 1 ∧ hi = M + 1) ∧ (m ≠ M → lo = m ∧ hi = M)) := by
  by_cases hv : data.filter isFinite = []
  · have hnone : ∀ q, fin q ∉ data := by
      intro q hq
      have := (fin_mem_filter data q).2 hq
      rw [hv] at this
      cases this
    refine ⟨0, 100, ?_, by norm_num, fun _ => ⟨rfl, rfl⟩, ?_⟩
    · simp [derivedBounds, hv, strictEq]
    · intro m M hm
      exact absurd hm (hnone m)
  · have hfin : ∀ v ∈ data.filter isFinite, isFinite v = true :=
      fun v h => (List.mem_filter.1 h).2
    obtain ⟨a, ha, hamem, hale⟩ := mathMin_finite _ hfin hv
    obtain ⟨b, hb, hbmem, hble⟩ := mathMax_finite _ hfin hv
    have hab : a ≤ b := hble a hamem
    have hsome : ¬ ∀ v ∈ data, isFinite v = false := by
      intro h
      have := h _ ((fin_mem_filter data a).1 hamem)
      simp [isFinite] at this
    have huniq : ∀ m M : ℚ, fin m ∈ data → (∀ q, fin q ∈ data → m ≤ q) →
        fin M ∈ data → (∀ q, fin q ∈ data → q ≤ M) → m = a ∧ M = b := by
      intro m M hm hmle hM hMle
      refine ⟨le_antisymm (hmle a ((fin_mem_filter data a).1 hamem))
          (hale m ((fin_mem_filter data m).2 hm)), ?_⟩
      exact le_antisymm (hble M ((fin_mem_filter data M).2 hM))
          (hMle b ((fin_mem_filter data b).1 hbmem))
    have hlen : (data.filter isFinite).length ≠ 0 := by
      intro h; exact hv (List.length_eq_zero.1 h)
    by_cases heq : a = b
    · refine ⟨a - 1, b + 1, ?_, by linarith, fun h => absurd h hsome, ?_⟩
      · simp [derivedBounds, hlen, ha, hb, strictEq, heq, JSNum.sub, JSNum.add, JSNum.neg,
          sub_eq_add_neg]
      · intro m M hm hmle hM hMle
        obtain ⟨h1, h2⟩ := huniq m M hm hmle hM hMle
        subst h1 h2
        exact ⟨fun _ => ⟨rfl, rfl⟩, fun h => absurd heq h⟩
    · refine ⟨a, b, ?_, lt_of_le_of_ne hab heq, fun h => absurd h hsome, ?_⟩
      · simp [derivedBounds, hlen, ha, hb, strictEq, heq]
      · intro m M hm hmle hM hMle
        obtain ⟨h1, h2⟩ := huniq m M hm hmle hM hMle
        subst h1 h2
        exact ⟨fun h => absurd h heq, fun _ => ⟨rfl, rfl⟩⟩

theorem effectiveBounds_derived (data : List JSNum) (minVal maxVal : Option JSNum)
    (h : minVal = none ∨ maxVal = none) :
    effectiveBounds data minVal maxVal = derivedBounds data := by
  rcases h with rfl | rfl
  · rfl
  · cases minVal <;> rfl


/-! ## Facts about the vertical scaling -/

theorem mathMin_pair (a b : ℚ) : mathMin [fin a, fin b] = fin (min a b) := by
  simp [mathMin, List.foldl, min2]

theorem mathMax_pair (a b : ℚ) : mathMax [fin a, fin b] = fin (max a b) := by
  simp [mathMax, List.foldl, max2]

theorem sub_fin (a b : ℚ) : JSNum.sub (fin a) (fin b) = fin (a - b) := by
  simp [JSNum.sub, JSNum.neg, JSNum.add, sub_eq_add_neg]

/-- The scaling formula on finite arguments with a non-zero range. -/
theorem scaleY_fin (h lo hi v : ℚ) (hne : hi - lo ≠ 0) :
    scaleY (fin h) (fin lo) (fin hi) (fin v)
      = fin (h - (max lo (min hi v) - lo) / (hi - lo) * h) := by
  simp [scaleY, mathMin_pair, mathMax_pair, sub_fin, JSNum.div, JSNum.mul, hne]

/-- A finite sample above a finite `max` is scaled like `max` itself. -/
theorem scaleY_above_max (height min : JSNum) (b v : ℚ) (hlt : b < v) :
    scaleY height min (fin b) (fin v) = scaleY height min (fin b) (fin b) := by
  simp [scaleY, mathMin_pair, min_eq_left (le_of_lt hlt)]

/-- A finite sample below a finite `min` is scaled like `min` itself. -/
theorem scaleY_below_min (height max : JSNum) (b v : ℚ) (hlt : v < b) :
    scaleY height (fin b) max (fin v) = scaleY height (fin b) max (fin b) := by
  cases max with
  | nan => simp [scaleY, mathMin, mathMax, List.foldl, min2, max2]
  | posInf =>
    simp [scaleY, mathMin, mathMax, List.foldl, min2, max2, max_eq_left (le_of_lt hlt)]
  | negInf => simp [scaleY, mathMin, mathMax, List.foldl, min2, max2]
  | fin m =>
    have h1 : Max.max b (Min.min m v) = b :=
      max_eq_left (le_trans (min_le_right _ _) (le_of_lt hlt))
    have h2 : Max.max b (Min.min m b) = b := max_eq_left (min_le_right _ _)
    simp [scaleY, mathMin_pair, mathMax_pair, h1, h2]


/-- The y-coordinate of the pair at index `i`, when the sample there is finite. -/
theorem polylinePoints_snd_fin (data : List JSNum) (height : JSNum)
    (minVal maxVal : Option JSNum) (i : Nat) (v : ℚ) (hv : data[i]? = some (fin v)) :
    ((polylinePoints data height minVal maxVal)[i]?).map Prod.snd =
      some (scaleY height (effectiveBounds data minVal maxVal).1
        (effectiveBounds data minVal maxVal).2 (fin v)) := by
  rw [polylinePoints_getElem?, hv]
  simp [mapPoint_snd_fin]

/-- C5: values outside the bounds are clamped. Take two calls with the same height and the
same bounds in force. A finite sample above the (finite) maximum gets the y of a sample
equal to the maximum, and a finite sample below the (finite) minimum gets the y of a sample
equal to the minimum. -/
theorem outside_values_are_clamped (d₁ d₂ : List JSNum) (height : JSNum)
    (min₁ max₁ min₂ max₂ : Option JSNum) (i j : Nat) (v b : ℚ)
    (_hlen₁ : 2 ≤ d₁.length) (_hlen₂ : 2 ≤ d₂.length)
    (hsame : effectiveBounds d₁ min₁ max₁ = effectiveBounds d₂ min₂ max₂)
    (hv : d₁[i]? = some (fin v)) (hb : d₂[j]? = some (fin b)) :
    ((effectiveBounds d₁ min₁ max₁).2 = fin b → b < v →
      ((polylinePoints d₁ height min₁ max₁)[i]?).map Prod.snd
        = ((polylinePoints d₂ height min₂ max₂)[j]?).map Prod.snd)
    ∧ ((effectiveBounds d₁ min₁ max₁).1 = fin b → v < b →
      ((polylinePoints d₁ height min₁ max₁)[i]?).map Prod.snd
        = ((polylinePoints d₂ height min₂ max₂)[j]?).map Prod.snd) := by
  rw [polylinePoints_snd_fin d₁ height min₁ max₁ i v hv,
    polylinePoints_snd_fin d₂ height min₂ max₂ j b hb, ← hsame]
  constructor
  · intro hmax hlt
    rw [hmax, scaleY_above_max _ _ _ _ hlt]
  · intro hmin hlt
    rw [hmin, scaleY_below_min _ _ _ _ hlt]

/-- An instance of clamping: with the bounds 0 and 5 supplied, the sample 20 gets the y of
the sample 5. -/
theorem outside_values_are_clamped_witness :
    2 ≤ [fin 5, fin 20].length
    ∧ ((polylinePoints [fin 5, fin 20] (fin 10) (some (fin 0)) (some (fin 5)))[1]?).map Prod.snd
      = ((polylinePoints [fin 5, fin 20] (fin 10) (some (fin 0)) (some (fin 5)))[0]?).map
          Prod.snd :=
  ⟨by decide,
   (outside_values_are_clamped [fin 5, fin 20] [fin 5, fin 20] (fin 10) (some (fin 0))
      (some (fin 5)) (some (fin 0)) (some (fin 5)) 1 0 20 5 (by decide) (by decide) rfl rfl
      rfl).1 rfl (by norm_num)⟩


/-- C6: for at least two samples, any height and any bounds, a sample that is not finite
(NaN or an infinity) at index `i` yields the pair `(i * step, height)`: its y is exactly the
height, it is not skipped, and its text is that of x, a comma, and that of the height. -/
theorem non_finite_pinned_to_height (data : List JSNum) (height : JSNum)
    (minVal maxVal : Option JSNum) (_hlen : 2 ≤ data.length) (i : Nat) (v : JSNum)
    (hv : data[i]? = some v) (hnf : isFinite v = false) :
    (polylinePoints data height minVal maxVal)[i]? = some (mul (fin i) (stepOf data), height)
    ∧ ((polylinePoints data height minVal maxVal)[i]?).map pointString
      = some (numberToString (mul (fin i) (stepOf data)) ++ "," ++ numberToString height) := by
  have h : (polylinePoints data height minVal maxVal)[i]?
      = some (mul (fin i) (stepOf data), height) := by
    rw [polylinePoints_getElem?, hv]
    simp [mapPoint_not_finite _ _ _ _ _ _ hnf]
  exact ⟨h, by rw [h]; rfl⟩

/-- An instance of pinning: a NaN in the middle of three samples. -/
theorem non_finite_pinned_to_height_witness :
    2 ≤ [fin 1, nan, fin 3].length
    ∧ (polylinePoints [fin 1, nan, fin 3] (fin 20) (some (fin 0)) (some (fin 10)))[1]?
      = some (mul (fin (1 : ℕ)) (stepOf [fin 1, nan, fin 3]), fin 20) :=
  ⟨by decide,
   (non_finite_pinned_to_height [fin 1, nan, fin 3] (fin 20) (some (fin 0)) (some (fin 10))
      (by decide) 1 nan rfl rfl).1⟩

/-- C9: if either bound is absent both are derived from the data: a single supplied bound
has no effect on the output. -/
theorem single_bound_is_ignored (data : Option (List JSNum)) (height m : JSNum) :
    getPolyline data height (some m) none = getPolyline data height none none
    ∧ getPolyline data height none (some m) = getPolyline data height none none := by
  cases data <;> exact ⟨rfl, rfl⟩

/-- C10: `getPolyline([0, 50, 100], 10)` with no bounds supplied derives `min = 0`,
`max = 100` and returns the text 0,10 50,5 100,0. -/
theorem auto_scaled_scenario :
    effectiveBounds [fin 0, fin 50, fin 100] none none = (fin 0, fin 100)
    ∧ getPolyline (some [fin 0, fin 50, fin 100]) (fin 10) none none = "0,10 50,5 100,0" := by
  with_unfolding_all decide


/-- C11: `getPolyline([1, NaN, 3], 20, 0, 10)` returns the text 0,18 50,20 100,14: bounds
supplied both are used as they are, whatever the data, and the middle pair has the height
for y. -/
theorem explicit_bounds_scenario :
    getPolyline (some [fin 1, nan, fin 3]) (fin 20) (some (fin 0)) (some (fin 10))
      = "0,18 50,20 100,14"
    ∧ (polylinePoints [fin 1, nan, fin 3] (fin 20) (some (fin 0)) (some (fin 10)))[1]?
      = some (fin 50, fin 20)
    ∧ ∀ (data : List JSNum) (lo hi : JSNum),
        effectiveBounds data (some lo) (some hi) = (lo, hi) := by
  refine ⟨by with_unfolding_all decide, by with_unfolding_all decide, fun _ _ _ => rfl⟩

/-- C13: with both bounds supplied and equal to one finite number there is no widening, the
range is zero, and for at least two samples every finite sample gets `y = NaN`, whatever the
height. -/
theorem equal_explicit_bounds_give_nan (data : List JSNum) (height : JSNum) (a : ℚ)
    (_hlen : 2 ≤ data.length) (i : Nat) (v : ℚ) (hv : data[i]? = some (fin v)) :
    effectiveBounds data (some (fin a)) (some (fin a)) = (fin a, fin a)
    ∧ JSNum.sub (fin a) (fin a) = fin 0
    ∧ ((polylinePoints data height (some (fin a)) (some (fin a)))[i]?).map Prod.snd = some nan
    ∧ isFinite nan = false := by
  refine ⟨rfl, by simp [sub_fin], ?_, rfl⟩
  rw [polylinePoints_snd_fin data height _ _ i v hv]
  have h1 : Max.max a (Min.min a v) = a := max_eq_left (min_le_left _ _)
  have hy : scaleY height (fin a) (fin a) (fin v) = nan := by
    simp only [scaleY, mathMin_pair, mathMax_pair, h1, sub_fin, sub_self]
    cases height <;> simp [JSNum.div, JSNum.mul, JSNum.sub, JSNum.add, JSNum.neg]
  simp [effectiveBounds, hy]

/-- An instance with the bounds 5 and 5 and the samples 5 and 7. -/
theorem equal_explicit_bounds_give_nan_witness :
    2 ≤ [fin 5, fin 7].length
    ∧ ((polylinePoints [fin 5, fin 7] (fin 10) (some (fin 5)) (some (fin 5)))[1]?).map Prod.snd
        = some nan :=
  ⟨by decide,
   (equal_explicit_bounds_give_nan [fin 5, fin 7] (fin 10) 5 (by decide) 1 7 rfl).2.2.1⟩

/-! ## More facts about the vertical scaling -/

/-- With `max < min` the clamp always yields `min`, so every finite sample lands on the
height. -/
theorem scaleY_inverted (h a b v : ℚ) (hlt : b < a) :
    scaleY (fin h) (fin a) (fin b) (fin v) = fin h := by
  have h1 : Max.max a (Min.min b v) = a :=
    max_eq_left (le_trans (min_le_left _ _) (le_of_lt hlt))
  rw [scaleY_fin _ _ _ _ (by intro h0; linarith), h1]
  simp

/-- The clamp is monotone. -/
theorem clamp_mono (lo hi v₁ v₂ : ℚ) (hv : v₁ ≤ v₂) :
    max lo (min hi v₁) ≤ max lo (min hi v₂) :=
  max_le_max (le_refl _) (min_le_min (le_refl _) hv)

/-- The clamp leaves a value inside the bounds as it is. -/
theorem clamp_inside (lo hi v : ℚ) (h₁ : lo ≤ v) (h₂ : v ≤ hi) : max lo (min hi v) = v := by
  rw [min_eq_right h₂, max_eq_right h₁]

/-- C14 (as amended): with both bounds supplied as finite numbers and `maxVal < minVal`,
every finite sample is clamped to `minVal` and, for a finite height and at least two samples,
gets `y = height` exactly: the line is flat on the bottom edge and no y is outside
`[0, height]`. -/
theorem inverted_bounds_flat_at_height (data : List JSNum) (h a b : ℚ) (_hlen : 2 ≤ data.length)
    (hlt : b < a) (i : Nat) (v : ℚ) (hv : data[i]? = some (fin v)) :
    mathMax [fin a, mathMin [fin b, fin v]] = fin a
    ∧ ((polylinePoints data (fin h) (some (fin a)) (some (fin b)))[i]?).map Prod.snd
        = some (fin h) := by
  constructor
  · rw [mathMin_pair, mathMax_pair,
      max_eq_left (le_trans (min_le_left _ _) (le_of_lt hlt))]
  · rw [polylinePoints_snd_fin data (fin h) _ _ i v hv]
    simp [effectiveBounds, scaleY_inverted _ _ _ _ hlt]

/-- An instance with `minVal = 8`, `maxVal = 3`: the sample 20 lands on the height 10. -/
theorem inverted_bounds_flat_at_height_witness :
    2 ≤ [fin 0, fin 5, fin 20].length
    ∧ ((polylinePoints [fin 0, fin 5, fin 20] (fin 10) (some (fin 8)) (some (fin 3)))[2]?).map
        Prod.snd = some (fin 10) :=
  ⟨by decide,
   (inverted_bounds_flat_at_height [fin 0, fin 5, fin 20] 10 8 3 (by decide) (by norm_num) 2 20
      rfl).2⟩

/-- C14 (as stated) fails: with `minVal = 8 > maxVal = 3` and the height 10, the samples 0, 5
and 20 all get `y = 10`; no finite sample at all gets a y outside `[0, 10]`; and `y = 10` is
also what the positive range from 3 to 8 gives the sample 0. -/
theorem no_sign_inversion_for_inverted_bounds :
    getPolyline (some [fin 0, fin 5, fin 20]) (fin 10) (some (fin 8)) (some (fin 3))
      = "0,10 50,10 100,10"
    ∧ (¬ ∃ v y : ℚ, scaleY (fin 10) (fin 8) (fin 3) (fin v) = fin y ∧ (y < 0 ∨ 10 < y))
    ∧ scaleY (fin 10) (fin 3) (fin 8) (fin 0) = fin 10 := by
  refine ⟨by with_unfolding_all decide, ?_, by with_unfolding_all decide⟩
  rintro ⟨v, y, hy, hout⟩
  rw [scaleY_inverted 10 8 3 v (by norm_num)] at hy
  injection hy with hy
  rcases hout with h | h <;> linarith

/-! ## Facts about derived bounds and rescaled data -/

/-- A list with a finite sample has a least and a greatest finite sample. -/
theorem exists_least_greatest (data : List JSNum) (q : ℚ) (hq : fin q ∈ data) :
    ∃ m M : ℚ, fin m ∈ data ∧ (∀ r, fin r ∈ data → m ≤ r)
      ∧ fin M ∈ data ∧ (∀ r, fin r ∈ data → r ≤ M) := by
  have hv : data.filter isFinite ≠ [] := by
    intro h
    have := (fin_mem_filter data q).2 hq
    rw [h] at this
    cases this
  have hfin : ∀ v ∈ data.filter isFinite, isFinite v = true :=
    fun v h => (List.mem_filter.1 h).2
  obtain ⟨m, _, hm, hmle⟩ := mathMin_finite _ hfin hv
  obtain ⟨M, _, hM, hMle⟩ := mathMax_finite _ hfin hv
  exact ⟨m, M, (fin_mem_filter data m).1 hm,
    fun r hr => hmle r ((fin_mem_filter data r).2 hr),
    (fin_mem_filter data M).1 hM, fun r hr => hMle r ((fin_mem_filter data r).2 hr)⟩

/-- The derived bounds of data whose least finite sample `m` is below its greatest `M`. -/
theorem derivedBounds_of_lt (data : List JSNum) (m M : ℚ) (hm : fin m ∈ data)
    (hmle : ∀ r, fin r ∈ data → m ≤ r) (hM : fin M ∈ data) (hMle : ∀ r, fin r ∈ data → r ≤ M)
    (hlt : m < M) : derivedBounds data = (fin m, fin M) := by
  obtain ⟨lo, hi, hb, _, _, hcase⟩ := derivedBounds_spec data
  obtain ⟨hlo, hhi⟩ := (hcase m M hm hmle hM hMle).2 (ne_of_lt hlt)
  rw [hb, hlo, hhi]

/-- The derived bounds of data whose finite samples all equal `c`. -/
theorem derivedBounds_of_eq (data : List JSNum) (c : ℚ) (hc : fin c ∈ data)
    (hle : ∀ r, fin r ∈ data → c ≤ r) (hge : ∀ r, fin r ∈ data → r ≤ c) :
    derivedBounds data = (fin (c - 1), fin (c + 1)) := by
  obtain ⟨lo, hi, hb, _, _, hcase⟩ := derivedBounds_spec data
  obtain ⟨hlo, hhi⟩ := (hcase c c hc hle hc hge).1 rfl
  rw [hb, hlo, hhi]

/-- The scaling formula for finite bounds with a non-zero range and any height. -/
theorem scaleY_fraction (height : JSNum) (lo hi v : ℚ) (hne : hi - lo ≠ 0) :
    scaleY height (fin lo) (fin hi) (fin v)
      = JSNum.sub height (mul (fin ((max lo (min hi v) - lo) / (hi - lo))) height) := by
  simp [scaleY, mathMin_pair, mathMax_pair, sub_fin, JSNum.div, hne]

theorem isFinite_rescale (a b : ℚ) (v : JSNum) : isFinite (rescale a b v) = isFinite v := by
  cases v <;> rfl

theorem rescale_not_finite (a b : ℚ) (v : JSNum) (h : isFinite v = false) :
    rescale a b v = v := by
  cases v <;> simp [rescale, isFinite] at h ⊢

theorem fin_mem_map_rescale (a b : ℚ) (data : List JSNum) (r : ℚ) :
    fin r ∈ data.map (rescale a b) ↔ ∃ q, fin q ∈ data ∧ r = a * q + b := by
  constructor
  · intro h
    obtain ⟨v, hv, hvr⟩ := List.mem_map.1 h
    cases v with
    | fin q =>
      simp only [rescale] at hvr
      injection hvr with hvr
      exact ⟨q, hv, hvr.symm⟩
    | nan => simp [rescale] at hvr
    | posInf => simp [rescale] at hvr
    | negInf => simp [rescale] at hvr
  · rintro ⟨q, hq, rfl⟩
    exact List.mem_map.2 ⟨fin q, hq, rfl⟩

/-- A finite sample gets the same y from the rescaled data as from the data. -/
theorem scaleY_rescale (data : List JSNum) (height : JSNum) (a b : ℚ) (ha : 0 < a) (q : ℚ)
    (hq : fin q ∈ data) :
    scaleY height (derivedBounds (data.map (rescale a b))).1
        (derivedBounds (data.map (rescale a b))).2 (fin (a * q + b))
      = scaleY height (derivedBounds data).1 (derivedBounds data).2 (fin q) := by
  obtain ⟨m, M, hm, hmle, hM, hMle⟩ := exists_least_greatest data q hq
  have hm' : fin (a * m + b) ∈ data.map (rescale a b) :=
    (fin_mem_map_rescale a b data _).2 ⟨m, hm, rfl⟩
  have hM' : fin (a * M + b) ∈ data.map (rescale a b) :=
    (fin_mem_map_rescale a b data _).2 ⟨M, hM, rfl⟩
  have hmle' : ∀ r, fin r ∈ data.map (rescale a b) → a * m + b ≤ r := by
    intro r hr
    obtain ⟨s, hs, rfl⟩ := (fin_mem_map_rescale a b data r).1 hr
    have := mul_le_mul_of_nonneg_left (hmle s hs) (le_of_lt ha)
    linarith
  have hMle' : ∀ r, fin r ∈ data.map (rescale a b) → r ≤ a * M + b := by
    intro r hr
    obtain ⟨s, hs, rfl⟩ := (fin_mem_map_rescale a b data r).1 hr
    have := mul_le_mul_of_nonneg_left (hMle s hs) (le_of_lt ha)
    linarith
  have hq₁ : m ≤ q := hmle q hq
  have hq₂ : q ≤ M := hMle q hq
  rcases eq_or_lt_of_le (le_trans hq₁ hq₂) with heq | hlt
  · subst heq
    have hqm : q = m := le_antisymm hq₂ hq₁
    subst hqm
    rw [derivedBounds_of_eq data q hm hmle hMle,
      derivedBounds_of_eq (data.map (rescale a b)) (a * q + b) hm' hmle' hMle']
    rw [scaleY_fraction _ _ _ _ (by intro h0; linarith),
      scaleY_fraction _ _ _ _ (by intro h0; linarith)]
    have e₁ : Max.max (q - 1) (Min.min (q + 1) q) = q := clamp_inside _ _ _ (by linarith) (by linarith)
    have e₂ : Max.max (a * q + b - 1) (Min.min (a * q + b + 1) (a * q + b)) = a * q + b :=
      clamp_inside _ _ _ (by linarith) (by linarith)
    rw [e₁, e₂]
    congr 3
    ring
  · have hlt' : a * m + b < a * M + b := by
      have := mul_lt_mul_of_pos_left hlt ha
      linarith
    rw [derivedBounds_of_lt data m M hm hmle hM hMle hlt,
      derivedBounds_of_lt (data.map (rescale a b)) _ _ hm' hmle' hM' hMle' hlt']
    rw [scaleY_fraction _ _ _ _ (by intro h0; linarith),
      scaleY_fraction _ _ _ _ (by intro h0; linarith)]
    have e₁ : Max.max m (Min.min M q) = q := clamp_inside _ _ _ hq₁ hq₂
    have e₂ : Max.max (a * m + b) (Min.min (a * M + b) (a * q + b)) = a * q + b := by
      apply clamp_inside
      · have := mul_le_mul_of_nonneg_left hq₁ (le_of_lt ha); linarith
      · have := mul_le_mul_of_nonneg_left hq₂ (le_of_lt ha); linarith
    rw [e₁, e₂]
    congr 3
    have hnum : a * q + b - (a * m + b) = a * (q - m) := by ring
    have hden : a * M + b - (a * m + b) = a * (M - m) := by ring
    rw [hnum, hden, mul_div_mul_left _ _ (ne_of_gt ha)]

/-- The pairs of the rescaled data are the pairs of the data. -/
theorem polylinePoints_rescale (data : List JSNum) (height : JSNum) (a b : ℚ) (ha : 0 < a) :
    polylinePoints (data.map (rescale a b)) height none none
      = polylinePoints data height none none := by
  apply List.ext_getElem?
  intro i
  rw [polylinePoints_getElem?, polylinePoints_getElem?, List.getElem?_map]
  have hstep : stepOf (data.map (rescale a b)) = stepOf data := by
    simp [stepOf]
  cases hv : data[i]? with
  | none => rfl
  | some v =>
    simp only [Option.map_some', hstep, effectiveBounds]
    congr 1
    cases hfin : isFinite v with
    | false =>
      rw [rescale_not_finite a b v hfin, mapPoint_not_finite _ _ _ _ _ _ hfin,
        mapPoint_not_finite _ _ _ _ _ _ hfin]
    | true =>
      obtain ⟨q, rfl⟩ := (isFinite_eq_true_iff v).1 hfin
      have hq : fin q ∈ data := List.getElem?_mem hv
      have hy := scaleY_rescale data height a b ha q hq
      simp only [mapPoint, rescale, isFinite, Bool.not_true, Bool.false_eq_true, if_false]
      rw [hy]

/-- C18: auto-scaling makes the output independent of unit and offset. For every sample
sequence (absent ones included), every height, every `a > 0` and every `b`, the call without
bounds on the samples `a * v + b` (samples that are not finite left as they are) returns what
the call without bounds on the samples `v` returns. So it is for the flat series 5, 5, 5 and
its image 13, 13, 13: both give the mid-height text. -/
theorem rescaling_keeps_output (data : Option (List JSNum)) (height : JSNum) (a b : ℚ)
    (ha : 0 < a) :
    getPolyline (data.map (List.map (rescale a b))) height none none
      = getPolyline data height none none
    ∧ getPolyline (some ([fin 5, fin 5, fin 5].map (rescale 2 3))) (fin 10) none none
      = "0,5 50,5 100,5" := by
  refine ⟨?_, by with_unfolding_all decide⟩
  cases data with
  | none => rfl
  | some d =>
    simp only [Option.map_some', getPolyline, List.length_map,
      polylinePoints_rescale d height a b ha]

/-- An instance: the samples 0, 50, NaN in another unit, `v ↦ 2 * v + 3`. -/
theorem rescaling_keeps_output_witness :
    (0 : ℚ) < 2
    ∧ getPolyline ((some [fin 0, fin 50, nan]).map (List.map (rescale 2 3))) (fin 10) none none
      = getPolyline (some [fin 0, fin 50, nan]) (fin 10) none none :=
  ⟨by norm_num,
   (rescaling_keeps_output (some [fin 0, fin 50, nan]) (fin 10) 2 3 (by norm_num)).1⟩

/-- C19: derived bounds agree with the explicit-bounds path. For at least two samples whose
least finite sample `m` is strictly below the greatest `M`, and every height, the call
without bounds returns what the call with the bounds `m` and `M` returns; the bounds in
force are `m` and `M`, and clamping leaves every finite sample as it is. -/
theorem derived_agrees_with_explicit (data : List JSNum) (height : JSNum) (m M : ℚ)
    (_hlen : 2 ≤ data.length)
    (hm : fin m ∈ data) (hmle : ∀ r, fin r ∈ data → m ≤ r)
    (hM : fin M ∈ data) (hMle : ∀ r, fin r ∈ data → r ≤ M) (hlt : m < M) :
    getPolyline (some data) height none none
      = getPolyline (some data) height (some (fin m)) (some (fin M))
    ∧ effectiveBounds data none none = (fin m, fin M)
    ∧ ∀ v : ℚ, fin v ∈ data → mathMax [fin m, mathMin [fin M, fin v]] = fin v := by
  have hb : effectiveBounds data none none = (fin m, fin M) :=
    derivedBounds_of_lt data m M hm hmle hM hMle hlt
  refine ⟨?_, hb, ?_⟩
  · have hp : polylinePoints data height none none
        = polylinePoints data height (some (fin m)) (some (fin M)) := by
      simp only [polylinePoints, hb]
      rfl
    simp only [getPolyline, hp]
  · intro v hv
    rw [mathMin_pair, mathMax_pair, clamp_inside m M v (hmle v hv) (hMle v hv)]

/-- An instance: the samples 2, NaN, 6 have the least finite sample 2 and the greatest 6. -/
theorem derived_agrees_with_explicit_witness :
    2 ≤ [fin 2, nan, fin 6].length
    ∧ getPolyline (some [fin 2, nan, fin 6]) (fin 10) none none
      = getPolyline (some [fin 2, nan, fin 6]) (fin 10) (some (fin 2)) (some (fin 6)) :=
  ⟨by decide,
   (derived_agrees_with_explicit [fin 2, nan, fin 6] (fin 10) 2 6 (by decide)
      (by simp)
      (by intro r hr; simp at hr; rcases hr with rfl | rfl <;> norm_num)
      (by simp)
      (by intro r hr; simp at hr; rcases hr with rfl | rfl <;> norm_num)
      (by norm_num)).1⟩

/-! ## Facts about binary64 rounding -/


theorem log2Fuel_spec : ∀ (fuel n : Nat), 0 < n → n ≤ fuel →
    2 ^ log2Fuel fuel n ≤ n ∧ n < 2 ^ (log2Fuel fuel n + 1) := by
  intro fuel
  induction fuel with
  | zero => intro n h0 h1; omega
  | succ f ih =>
    intro n h0 h1
    simp only [log2Fuel]
    split_ifs with h
    · constructor
      · simpa using h0
      · simpa using h
    · obtain ⟨l1, l2⟩ := ih (n / 2) (by omega) (by omega)
      constructor
      · have : 2 ^ (log2Fuel f (n / 2) + 1) = 2 * 2 ^ log2Fuel f (n / 2) := by ring
        omega
      · have : 2 ^ (log2Fuel f (n / 2) + 1 + 1) = 2 * 2 ^ (log2Fuel f (n / 2) + 1) := by ring
        omega

theorem natLog_bounds (n : Nat) (h : 0 < n) :
    (2 : ℚ) ^ (log2Fuel n n : ℤ) ≤ n ∧ (n : ℚ) < (2 : ℚ) ^ ((log2Fuel n n : ℤ) + 1) := by
  obtain ⟨l1, l2⟩ := log2Fuel_spec n n h (le_refl _)
  constructor
  · rw [zpow_natCast]
    exact_mod_cast l1
  · have : ((log2Fuel n n : ℤ) + 1) = ((log2Fuel n n + 1 : ℕ) : ℤ) := by push_cast; ring
    rw [this, zpow_natCast]
    exact_mod_cast l2

theorem floorLog2_spec (x : ℚ) (hx : 0 < x) :
    (2 : ℚ) ^ floorLog2 x ≤ x ∧ x < (2 : ℚ) ^ (floorLog2 x + 1) := by
  have hnum : 0 < x.num := Rat.num_pos.2 hx
  have hn : 0 < x.num.natAbs := Int.natAbs_pos.2 (ne_of_gt hnum)
  have hd : 0 < x.den := x.den_pos
  obtain ⟨n1, n2⟩ := natLog_bounds _ hn
  obtain ⟨d1, d2⟩ := natLog_bounds _ hd
  have hxe : x = (x.num.natAbs : ℚ) / (x.den : ℚ) := by
    have h2 : ((x.num.natAbs : ℕ) : ℚ) = (x.num : ℚ) := by
      rw [Nat.cast_natAbs, abs_of_pos hnum]
    rw [h2, Rat.num_div_den]
  have hdq : (0 : ℚ) < (x.den : ℚ) := by exact_mod_cast hd
  have two : (2 : ℚ) ≠ 0 := by norm_num
  set a : ℤ := (log2Fuel x.num.natAbs x.num.natAbs : ℤ) with ha
  set b : ℤ := (log2Fuel x.den x.den : ℤ) with hb
  have hup : x < (2 : ℚ) ^ (a - b + 1) := by
    have e : (2 : ℚ) ^ (a - b + 1) = (2 : ℚ) ^ (a + 1) / (2 : ℚ) ^ b := by
      rw [← zpow_sub₀ two]; congr 1; ring
    rw [e, hxe, div_lt_div_iff₀ hdq (zpow_pos (by norm_num) _)]
    calc (x.num.natAbs : ℚ) * (2 : ℚ) ^ b
        ≤ (x.num.natAbs : ℚ) * (x.den : ℚ) := by
          apply mul_le_mul_of_nonneg_left d1; positivity
      _ < (2 : ℚ) ^ (a + 1) * (x.den : ℚ) := by
          apply mul_lt_mul_of_pos_right n2 hdq
  have hlo : (2 : ℚ) ^ (a - b - 1) ≤ x := by
    have e : (2 : ℚ) ^ (a - b - 1) = (2 : ℚ) ^ a / (2 : ℚ) ^ (b + 1) := by
      rw [← zpow_sub₀ two]; congr 1; ring
    rw [e, hxe, div_le_div_iff₀ (zpow_pos (by norm_num) _) hdq]
    calc (2 : ℚ) ^ a * (x.den : ℚ)
        ≤ (x.num.natAbs : ℚ) * (x.den : ℚ) := by
          apply mul_le_mul_of_nonneg_right n1 (le_of_lt hdq)
      _ ≤ (x.num.natAbs : ℚ) * (2 : ℚ) ^ (b + 1) := by
          apply mul_le_mul_of_nonneg_left (le_of_lt d2); positivity
  unfold floorLog2
  simp only
  split_ifs with h
  · exact ⟨h, hup⟩
  · refine ⟨hlo, ?_⟩
    have : a - b - 1 + 1 = a - b := by ring
    rw [this]
    exact lt_of_not_le h


theorem roundHalfEven_ge_floor (y : ℚ) : ⌊y⌋ ≤ roundHalfEven y := by
  unfold roundHalfEven
  split_ifs <;> omega

theorem roundHalfEven_le_floor_succ (y : ℚ) : roundHalfEven y ≤ ⌊y⌋ + 1 := by
  unfold roundHalfEven
  split_ifs <;> omega

theorem roundHalfEven_intCast (z : ℤ) : roundHalfEven (z : ℚ) = z := by
  unfold roundHalfEven
  simp

theorem roundHalfEven_error (y : ℚ) : |(roundHalfEven y : ℚ) - y| ≤ 1 / 2 := by
  have h1 := Int.floor_le y
  have h2 := Int.lt_floor_add_one y
  unfold roundHalfEven
  rw [abs_le]
  split_ifs with a b c
  · constructor <;> linarith
  · push_cast; constructor <;> linarith
  · constructor <;> linarith
  · push_cast; constructor <;> linarith

theorem roundHalfEven_mono {y₁ y₂ : ℚ} (h : y₁ ≤ y₂) : roundHalfEven y₁ ≤ roundHalfEven y₂ := by
  have hf : ⌊y₁⌋ ≤ ⌊y₂⌋ := Int.floor_mono h
  rcases lt_or_eq_of_le hf with hlt | heq
  · calc roundHalfEven y₁ ≤ ⌊y₁⌋ + 1 := roundHalfEven_le_floor_succ y₁
      _ ≤ ⌊y₂⌋ := hlt
      _ ≤ roundHalfEven y₂ := roundHalfEven_ge_floor y₂
  · have hr : y₁ - ⌊y₁⌋ ≤ y₂ - ⌊y₂⌋ := by rw [heq]; linarith
    unfold roundHalfEven
    rw [heq]
    rw [heq] at hr
    split_ifs <;> first | omega | (exfalso; linarith)

theorem roundHalfEven_nonneg {y : ℚ} (h : 0 ≤ y) : 0 ≤ roundHalfEven y := by
  have := roundHalfEven_mono h
  rwa [show roundHalfEven 0 = 0 from roundHalfEven_intCast 0] at this

theorem two_zpow_pos (e : ℤ) : (0 : ℚ) < (2 : ℚ) ^ e := zpow_pos (by norm_num) e

theorem two_zpow_le {a b : ℤ} (h : a ≤ b) : (2 : ℚ) ^ a ≤ (2 : ℚ) ^ b :=
  zpow_le_zpow_right₀ (by norm_num) h

theorem two_zpow_lt_iff {a b : ℤ} : (2 : ℚ) ^ a < (2 : ℚ) ^ b ↔ a < b :=
  zpow_lt_zpow_iff_right₀ (by norm_num)

theorem two_zpow_add (a b : ℤ) : (2 : ℚ) ^ (a + b) = (2 : ℚ) ^ a * (2 : ℚ) ^ b :=
  zpow_add₀ (by norm_num) a b

theorem floorLog2_mono {x y : ℚ} (hx : 0 < x) (h : x ≤ y) : floorLog2 x ≤ floorLog2 y := by
  obtain ⟨x1, _⟩ := floorLog2_spec x hx
  obtain ⟨_, y2⟩ := floorLog2_spec y (lt_of_lt_of_le hx h)
  have : (2 : ℚ) ^ floorLog2 x < (2 : ℚ) ^ (floorLog2 y + 1) :=
    lt_of_le_of_lt (le_trans x1 h) y2
  have := two_zpow_lt_iff.1 this
  omega

theorem ulpExp_mono {x y : ℚ} (hx : 0 < x) (h : x ≤ y) : ulpExp x ≤ ulpExp y := by
  have := floorLog2_mono hx h
  unfold ulpExp
  omega

theorem ulpExp_ge (x : ℚ) : -1074 ≤ ulpExp x := by
  unfold ulpExp
  omega

/-- A positive rational is below the top of the grid it is rounded on. -/
theorem lt_top_of_grid (x : ℚ) (hx : 0 < x) : x < (2 : ℚ) ^ (ulpExp x + 53) := by
  obtain ⟨_, x2⟩ := floorLog2_spec x hx
  refine lt_of_lt_of_le x2 (two_zpow_le ?_)
  unfold ulpExp
  omega

theorem roundPos_nonneg (x : ℚ) (hx : 0 ≤ x) : 0 ≤ roundPos x := by
  unfold roundPos
  have : 0 ≤ x / (2 : ℚ) ^ ulpExp x := div_nonneg hx (le_of_lt (two_zpow_pos _))
  have h := roundHalfEven_nonneg this
  have h' : (0 : ℚ) ≤ (roundHalfEven (x / (2 : ℚ) ^ ulpExp x) : ℚ) := by exact_mod_cast h
  exact mul_nonneg h' (le_of_lt (two_zpow_pos _))

theorem roundPos_zero : roundPos 0 = 0 := by decide!

theorem roundPos_le_top (x : ℚ) (hx : 0 < x) : roundPos x ≤ (2 : ℚ) ^ (ulpExp x + 53) := by
  have hlt := lt_top_of_grid x hx
  have hP := two_zpow_pos (ulpExp x)
  have h1 : x / (2 : ℚ) ^ ulpExp x ≤ (((2 : ℤ) ^ (53 : ℕ) : ℤ) : ℚ) := by
    rw [div_le_iff₀ hP]
    have : (((2 : ℤ) ^ (53 : ℕ) : ℤ) : ℚ) * (2 : ℚ) ^ ulpExp x = (2 : ℚ) ^ (ulpExp x + 53) := by
      rw [two_zpow_add, mul_comm]
      norm_num
    rw [this]
    exact le_of_lt hlt
  have h2 := roundHalfEven_mono h1
  rw [roundHalfEven_intCast] at h2
  have h3 : (roundHalfEven (x / (2 : ℚ) ^ ulpExp x) : ℚ) ≤ (((2 : ℤ) ^ (53 : ℕ) : ℤ) : ℚ) := by
    exact_mod_cast h2
  unfold roundPos
  calc (roundHalfEven (x / (2 : ℚ) ^ ulpExp x) : ℚ) * (2 : ℚ) ^ ulpExp x
      ≤ (((2 : ℤ) ^ (53 : ℕ) : ℤ) : ℚ) * (2 : ℚ) ^ ulpExp x :=
        mul_le_mul_of_nonneg_right h3 (le_of_lt hP)
    _ = (2 : ℚ) ^ (ulpExp x + 53) := by
        rw [two_zpow_add, mul_comm]
        norm_num

theorem roundPos_ge_bottom (y : ℚ) (hy : 0 < y) (hn : -1022 ≤ floorLog2 y) :
    (2 : ℚ) ^ (ulpExp y + 52) ≤ roundPos y := by
  obtain ⟨y1, _⟩ := floorLog2_spec y hy
  have he : ulpExp y + 52 = floorLog2 y := by unfold ulpExp; omega
  have hP := two_zpow_pos (ulpExp y)
  have h1 : (((2 : ℤ) ^ (52 : ℕ) : ℤ) : ℚ) ≤ y / (2 : ℚ) ^ ulpExp y := by
    rw [le_div_iff₀ hP]
    have : (((2 : ℤ) ^ (52 : ℕ) : ℤ) : ℚ) * (2 : ℚ) ^ ulpExp y = (2 : ℚ) ^ (ulpExp y + 52) := by
      rw [two_zpow_add, mul_comm]
      norm_num
    rw [this, he]
    exact y1
  have h2 := roundHalfEven_mono h1
  rw [roundHalfEven_intCast] at h2
  have h3 : (((2 : ℤ) ^ (52 : ℕ) : ℤ) : ℚ) ≤ (roundHalfEven (y / (2 : ℚ) ^ ulpExp y) : ℚ) := by
    exact_mod_cast h2
  unfold roundPos
  calc (2 : ℚ) ^ (ulpExp y + 52)
      = (((2 : ℤ) ^ (52 : ℕ) : ℤ) : ℚ) * (2 : ℚ) ^ ulpExp y := by
        rw [two_zpow_add, mul_comm]
        norm_num
    _ ≤ (roundHalfEven (y / (2 : ℚ) ^ ulpExp y) : ℚ) * (2 : ℚ) ^ ulpExp y :=
        mul_le_mul_of_nonneg_right h3 (le_of_lt hP)

/-- Rounding is monotone on the non-negative rationals. -/
theorem roundPos_mono {x y : ℚ} (hx : 0 ≤ x) (h : x ≤ y) : roundPos x ≤ roundPos y := by
  rcases eq_or_lt_of_le hx with h0 | hpos
  · rw [← h0, roundPos_zero]
    exact roundPos_nonneg y (le_trans hx h)
  · have hy : 0 < y := lt_of_lt_of_le hpos h
    have he := ulpExp_mono hpos h
    rcases eq_or_lt_of_le he with heq | hlt
    · unfold roundPos
      rw [heq]
      have hP := two_zpow_pos (ulpExp y)
      have h1 : x / (2 : ℚ) ^ ulpExp y ≤ y / (2 : ℚ) ^ ulpExp y :=
        div_le_div_of_nonneg_right h (le_of_lt hP)
      have h2 := roundHalfEven_mono h1
      have h3 : (roundHalfEven (x / (2 : ℚ) ^ ulpExp y) : ℚ)
          ≤ (roundHalfEven (y / (2 : ℚ) ^ ulpExp y) : ℚ) := by exact_mod_cast h2
      exact mul_le_mul_of_nonneg_right h3 (le_of_lt hP)
    · have hn : -1022 ≤ floorLog2 y := by
        have := ulpExp_ge x
        unfold ulpExp at hlt this
        omega
      calc roundPos x ≤ (2 : ℚ) ^ (ulpExp x + 53) := roundPos_le_top x hpos
        _ ≤ (2 : ℚ) ^ (ulpExp y + 52) := two_zpow_le (by omega)
        _ ≤ roundPos y := roundPos_ge_bottom y hy hn


theorem roundPos_error_ulp (x : ℚ) : |roundPos x - x| ≤ (2 : ℚ) ^ ulpExp x / 2 := by
  have hP := two_zpow_pos (ulpExp x)
  have h := roundHalfEven_error (x / (2 : ℚ) ^ ulpExp x)
  have e : roundPos x - x
      = ((roundHalfEven (x / (2 : ℚ) ^ ulpExp x) : ℚ) - x / (2 : ℚ) ^ ulpExp x)
          * (2 : ℚ) ^ ulpExp x := by
    unfold roundPos
    field_simp
  rw [e, abs_mul, abs_of_pos hP]
  calc |(roundHalfEven (x / (2 : ℚ) ^ ulpExp x) : ℚ) - x / (2 : ℚ) ^ ulpExp x|
        * (2 : ℚ) ^ ulpExp x
      ≤ 1 / 2 * (2 : ℚ) ^ ulpExp x := mul_le_mul_of_nonneg_right h (le_of_lt hP)
    _ = (2 : ℚ) ^ ulpExp x / 2 := by ring

/-- In the normal range the rounding error is at most `2^(-53)` times the value. -/
theorem roundPos_rel_error (x : ℚ) (hx : (2 : ℚ) ^ (-1022 : ℤ) ≤ x) :
    |roundPos x - x| ≤ x * (2 : ℚ) ^ (-53 : ℤ) := by
  have hpos : 0 < x := lt_of_lt_of_le (two_zpow_pos _) hx
  obtain ⟨x1, x2⟩ := floorLog2_spec x hpos
  have hk : -1022 ≤ floorLog2 x := by
    have := two_zpow_lt_iff.1 (lt_of_le_of_lt hx x2)
    omega
  have he : ulpExp x = floorLog2 x + (-52) := by unfold ulpExp; omega
  have h := roundPos_error_ulp x
  have hP : (2 : ℚ) ^ ulpExp x / 2 ≤ x * (2 : ℚ) ^ (-53 : ℤ) := by
    rw [he, two_zpow_add]
    have e53 : (2 : ℚ) ^ (-53 : ℤ) = (2 : ℚ) ^ (-52 : ℤ) / 2 := by norm_num
    rw [e53]
    have h52 : (0 : ℚ) < (2 : ℚ) ^ (-52 : ℤ) := two_zpow_pos _
    have := mul_le_mul_of_nonneg_right x1 (le_of_lt h52)
    linarith
  exact le_trans h hP

/-- Every rounded value is an integer multiple of `2^(-1074)`. -/
theorem roundPos_grid (x : ℚ) : ∃ z : ℤ, roundPos x = (z : ℚ) * (2 : ℚ) ^ (-1074 : ℤ) := by
  have hge := ulpExp_ge x
  refine ⟨roundHalfEven (x / (2 : ℚ) ^ ulpExp x) * (2 : ℤ) ^ (ulpExp x + 1074).toNat, ?_⟩
  have e : (2 : ℚ) ^ ulpExp x
      = (((2 : ℤ) ^ (ulpExp x + 1074).toNat : ℤ) : ℚ) * (2 : ℚ) ^ (-1074 : ℤ) := by
    have h1 : (((2 : ℤ) ^ (ulpExp x + 1074).toNat : ℤ) : ℚ)
        = (2 : ℚ) ^ (((ulpExp x + 1074).toNat : ℕ) : ℤ) := by
      rw [zpow_natCast]; norm_cast
    rw [h1, Int.toNat_of_nonneg (by omega), ← two_zpow_add]
    congr 1
    ring
  unfold roundPos
  rw [e]
  push_cast
  ring

theorem round64_of_nonneg (x : ℚ) (hx : 0 ≤ x) (hfin : roundPos x < (2 : ℚ) ^ (1024 : ℤ)) :
    round64 x = fin (roundPos x) := by
  unfold round64
  rw [if_pos hx, if_neg (not_le.2 hfin)]

theorem round64_overflow (x : ℚ) (hx : 0 ≤ x) (hinf : (2 : ℚ) ^ (1024 : ℤ) ≤ roundPos x) :
    round64 x = posInf := by
  unfold round64
  rw [if_pos hx, if_pos hinf]

theorem round64_zero : round64 0 = fin 0 := by decide!

theorem round64_one : round64 1 = fin 1 := by decide!

theorem IsDouble.roundPos_eq {q : ℚ} (h : IsDouble q) (hq : 0 ≤ q) :
    roundPos q = q ∧ q < (2 : ℚ) ^ (1024 : ℤ) := by
  unfold IsDouble round64 at h
  rw [if_pos hq] at h
  split_ifs at h with h1
  injection h with h
  rw [h] at h1
  exact ⟨h, not_le.1 h1⟩

theorem IsDouble.grid {q : ℚ} (h : IsDouble q) :
    ∃ z : ℤ, q = (z : ℚ) * (2 : ℚ) ^ (-1074 : ℤ) := by
  by_cases hq : 0 ≤ q
  · obtain ⟨z, hz⟩ := roundPos_grid q
    exact ⟨z, by rw [← hz, (h.roundPos_eq hq).1]⟩
  · unfold IsDouble round64 at h
    rw [if_neg hq] at h
    split_ifs at h with h1
    injection h with h
    obtain ⟨z, hz⟩ := roundPos_grid (-q)
    refine ⟨-z, ?_⟩
    rw [← h, hz]
    push_cast
    ring

/-- Two distinct binary64 numbers differ by at least `2^(-1074)`, so their rounded
difference is not zero. -/
theorem roundPos_sub_pos {a b : ℚ} (ha : IsDouble a) (hb : IsDouble b) (hlt : a < b) :
    0 < roundPos (b - a) := by
  obtain ⟨za, hza⟩ := ha.grid
  obtain ⟨zb, hzb⟩ := hb.grid
  have hδ : (0 : ℚ) < (2 : ℚ) ^ (-1074 : ℤ) := two_zpow_pos _
  have hz : za < zb := by
    by_contra hcon
    have hle : (zb : ℚ) ≤ (za : ℚ) := by exact_mod_cast not_lt.1 hcon
    have := mul_le_mul_of_nonneg_right hle (le_of_lt hδ)
    rw [← hza, ← hzb] at this
    linarith
  have h1 : (1 : ℚ) ≤ (zb : ℚ) - (za : ℚ) := by
    have : za + 1 ≤ zb := hz
    have : ((za + 1 : ℤ) : ℚ) ≤ (zb : ℚ) := by exact_mod_cast this
    push_cast at this
    linarith
  have hge : (2 : ℚ) ^ (-1074 : ℤ) ≤ b - a := by
    rw [hza, hzb]
    have := mul_le_mul_of_nonneg_right h1 (le_of_lt hδ)
    linarith
  have hm := roundPos_mono (le_of_lt hδ) hge
  have hfix : roundPos ((2 : ℚ) ^ (-1074 : ℤ)) = (2 : ℚ) ^ (-1074 : ℤ) := by decide!
  rw [hfix] at hm
  exact lt_of_lt_of_le hδ hm

/-- A natural number below `2^53` is a binary64 number. -/
theorem roundPos_natCast (n : ℕ) (hn : n < 2 ^ 53) : roundPos (n : ℚ) = (n : ℚ) := by
  rcases Nat.eq_zero_or_pos n with rfl | hpos
  · simpa using roundPos_zero
  · have hq : (0 : ℚ) < (n : ℚ) := by exact_mod_cast hpos
    obtain ⟨x1, x2⟩ := floorLog2_spec (n : ℚ) hq
    have hk0 : 0 ≤ floorLog2 (n : ℚ) := by
      have h1 : (2 : ℚ) ^ (0 : ℤ) ≤ (n : ℚ) := by
        simp only [zpow_zero]
        exact_mod_cast hpos
      have := two_zpow_lt_iff.1 (lt_of_le_of_lt h1 x2)
      omega
    have hk52 : floorLog2 (n : ℚ) ≤ 52 := by
      have h1 : (n : ℚ) < (2 : ℚ) ^ (53 : ℤ) := by
        have h0 : (n : ℚ) < ((2 ^ 53 : ℕ) : ℚ) := by exact_mod_cast hn
        have e : ((2 ^ 53 : ℕ) : ℚ) = (2 : ℚ) ^ (53 : ℤ) := by norm_num
        rwa [e] at h0
      have := two_zpow_lt_iff.1 (lt_of_le_of_lt x1 h1)
      omega
    have he : ulpExp (n : ℚ) = -(((52 - floorLog2 (n : ℚ)).toNat : ℕ) : ℤ) := by
      unfold ulpExp
      rw [Int.toNat_of_nonneg (by omega)]
      omega
    have hdiv : (n : ℚ) / (2 : ℚ) ^ ulpExp (n : ℚ)
        = (((n : ℤ) * (2 : ℤ) ^ (52 - floorLog2 (n : ℚ)).toNat : ℤ) : ℚ) := by
      rw [he, zpow_neg, zpow_natCast]
      push_cast
      field_simp
    unfold roundPos
    rw [hdiv, roundHalfEven_intCast, he, zpow_neg, zpow_natCast]
    push_cast
    field_simp

theorem round64_natCast (n : ℕ) (hn : n < 2 ^ 53) : round64 (n : ℚ) = fin (n : ℚ) := by
  have h := roundPos_natCast n hn
  rw [round64_of_nonneg _ (by positivity)]
  · rw [h]
  · rw [h]
    have h1 : (n : ℚ) < ((2 ^ 53 : ℕ) : ℚ) := by exact_mod_cast hn
    have h2 : ((2 ^ 53 : ℕ) : ℚ) ≤ (2 : ℚ) ^ (1024 : ℤ) := by
      have : ((2 ^ 53 : ℕ) : ℚ) = (2 : ℚ) ^ (53 : ℤ) := by norm_num
      rw [this]
      exact two_zpow_le (by norm_num)
    linarith


/-! ## Facts about the function in binary64 arithmetic -/

theorem sub64_fin (a b : ℚ) : JSNum.sub64 (fin a) (fin b) = round64 (a - b) := rfl

theorem mul64_fin (a b : ℚ) : JSNum.mul64 (fin a) (fin b) = round64 (a * b) := rfl

theorem div64_fin (a b : ℚ) (hb : b ≠ 0) : JSNum.div64 (fin a) (fin b) = round64 (a / b) := by
  simp [JSNum.div64, hb]

theorem mapPoint64_fst (step height min max : JSNum) (i : Nat) (val : JSNum) :
    (mapPoint64 step height min max i val).1 = mul64 (fin i) step := by
  unfold mapPoint64
  split_ifs <;> rfl

theorem mapPoint64_snd_fin (step height min max : JSNum) (i : Nat) (q : ℚ) :
    (mapPoint64 step height min max i (fin q)).2 = scaleY64 height min max (fin q) := by
  simp [mapPoint64, isFinite]

theorem mapPoint64_not_finite (step height min max : JSNum) (i : Nat) (val : JSNum)
    (h : isFinite val = false) :
    mapPoint64 step height min max i val = (mul64 (fin i) step, height) := by
  simp [mapPoint64, h]

theorem polylinePoints64_getElem? (data : List JSNum) (height : JSNum)
    (minVal maxVal : Option JSNum) (i : Nat) :
    (polylinePoints64 data height minVal maxVal)[i]? =
      (data[i]?).map (mapPoint64 (stepOf64 data) height
        (effectiveBounds64 data minVal maxVal).1 (effectiveBounds64 data minVal maxVal).2 i) := by
  simp [polylinePoints64]

theorem polylinePoints64_snd_fin (data : List JSNum) (height : JSNum)
    (minVal maxVal : Option JSNum) (i : Nat) (v : ℚ) (hv : data[i]? = some (fin v)) :
    ((polylinePoints64 data height minVal maxVal)[i]?).map Prod.snd =
      some (scaleY64 height (effectiveBounds64 data minVal maxVal).1
        (effectiveBounds64 data minVal maxVal).2 (fin v)) := by
  rw [polylinePoints64_getElem?, hv]
  simp [mapPoint64_snd_fin]

theorem effectiveBounds64_derived (data : List JSNum) (minVal maxVal : Option JSNum)
    (h : minVal = none ∨ maxVal = none) :
    effectiveBounds64 data minVal maxVal = derivedBounds64 data := by
  rcases h with rfl | rfl
  · rfl
  · cases minVal <;> rfl

/-- The range of two distinct binary64 bounds in increasing order is positive or overflows. -/
theorem range64_pos {lo hi : ℚ} (hlo : IsDouble lo) (hhi : IsDouble hi) (hlt : lo < hi) :
    JSNum.sub64 (fin hi) (fin lo) = posInf
    ∨ (JSNum.sub64 (fin hi) (fin lo) = fin (roundPos (hi - lo)) ∧ 0 < roundPos (hi - lo)
        ∧ roundPos (hi - lo) < (2 : ℚ) ^ (1024 : ℤ)) := by
  have hpos := roundPos_sub_pos hlo hhi hlt
  have h0 : 0 ≤ hi - lo := by linarith
  rw [sub64_fin]
  by_cases hov : (2 : ℚ) ^ (1024 : ℤ) ≤ roundPos (hi - lo)
  · exact Or.inl (round64_overflow _ h0 hov)
  · exact Or.inr ⟨round64_of_nonneg _ h0 (not_le.1 hov), hpos, not_le.1 hov⟩

/-- A sample equal to a finite `min` lands on the height as soon as `max` is not `NaN` and
differs from `min`: the numerator is zero and the range is not. -/
theorem scaleY64_at_min (h lo : ℚ) (mx : JSNum) (hh : IsDouble h) (hlo : IsDouble lo)
    (hmx : mx = posInf ∨ mx = negInf ∨ ∃ hi : ℚ, mx = fin hi ∧ IsDouble hi ∧ hi ≠ lo) :
    scaleY64 (fin h) (fin lo) mx (fin lo) = fin h := by
  have hz : round64 0 = fin 0 := round64_zero
  have hfinal : JSNum.sub64 (fin h) (JSNum.mul64 (fin 0) (fin h)) = fin h := by
    rw [mul64_fin, zero_mul, hz, sub64_fin, sub_zero]
    exact hh
  rcases hmx with rfl | rfl | ⟨hi, rfl, hhi, hne⟩
  · have e : scaleY64 (fin h) (fin lo) posInf (fin lo)
        = JSNum.sub64 (fin h) (JSNum.mul64 (fin 0) (fin h)) := by
      simp [scaleY64, mathMin, mathMax, List.foldl, min2, max2, sub64_fin, hz, JSNum.sub64,
        JSNum.sub, JSNum.neg, JSNum.add, JSNum.div64, JSNum.div]
    rw [e, hfinal]
  · have e : scaleY64 (fin h) (fin lo) negInf (fin lo)
        = JSNum.sub64 (fin h) (JSNum.mul64 (fin 0) (fin h)) := by
      simp [scaleY64, mathMin, mathMax, List.foldl, min2, max2, sub64_fin, hz, JSNum.sub64,
        JSNum.sub, JSNum.neg, JSNum.add, JSNum.div64, JSNum.div]
    rw [e, hfinal]
  · have hc : mathMax [fin lo, mathMin [fin hi, fin lo]] = fin lo := by
      rw [mathMin_pair, mathMax_pair]
      congr 1
      exact max_eq_left (min_le_right _ _)
    have e : scaleY64 (fin h) (fin lo) (fin hi) (fin lo)
        = JSNum.sub64 (fin h) (JSNum.mul64 (fin 0) (fin h)) := by
      unfold scaleY64
      simp only [hc, sub64_fin, sub_self, hz]
      rcases lt_or_gt_of_ne hne with hlt | hgt
      · -- `max < min`: the range is negative
        have hpos := roundPos_sub_pos hhi hlo hlt
        have hneg : ¬ (0 : ℚ) ≤ hi - lo := by linarith
        have e2 : -(hi - lo) = lo - hi := by ring
        by_cases hov : (2 : ℚ) ^ (1024 : ℤ) ≤ roundPos (lo - hi)
        · have hr : round64 (hi - lo) = negInf := by
            unfold round64
            rw [if_neg hneg, e2, if_pos hov]
          rw [hr]
          rfl
        · have hr : round64 (hi - lo) = fin (-(roundPos (lo - hi))) := by
            unfold round64
            rw [if_neg hneg, e2, if_neg hov]
          rw [hr, div64_fin _ _ (by linarith), zero_div, hz]
      · rcases range64_pos hlo hhi hgt with hinf | ⟨hr, hpos, _⟩
        · rw [sub64_fin] at hinf
          rw [hinf]
          rfl
        · rw [sub64_fin] at hr
          rw [hr, div64_fin _ _ (ne_of_gt hpos), zero_div, hz]
    rw [e, hfinal]

/-- A sample equal to a finite `max` above `min` lands on 0 when the range does not
overflow. -/
theorem scaleY64_at_max (h lo hi : ℚ) (hh : IsDouble h) (hlo : IsDouble lo) (hhi : IsDouble hi)
    (hlt : lo < hi) (hov : JSNum.sub64 (fin hi) (fin lo) ≠ posInf) :
    scaleY64 (fin h) (fin lo) (fin hi) (fin hi) = fin 0 := by
  have hc : mathMax [fin lo, mathMin [fin hi, fin hi]] = fin hi := by
    rw [mathMin_pair, mathMax_pair, min_self, max_eq_right (le_of_lt hlt)]
  rcases range64_pos hlo hhi hlt with hinf | ⟨hr, hpos, _⟩
  · exact absurd hinf hov
  · unfold scaleY64
    simp only [hc]
    rw [hr, div64_fin _ _ (ne_of_gt hpos), div_self (ne_of_gt hpos), round64_one, mul64_fin,
      one_mul, show round64 h = fin h from hh, sub64_fin, sub_self, round64_zero]

/-- C4 (as amended): for at least two samples, a finite height and bounds in force (derived
or supplied) with a finite `min`, in binary64 arithmetic: when `max` is not `NaN` and differs
from `min`, a finite sample equal to `min` is mapped to `y = height`; when `max` is finite,
above `min`, and `max - min` does not overflow, a finite sample equal to `max` is mapped to
`y = 0`. -/
theorem edge_samples_map_to_edges (data : List JSNum) (h lo : ℚ) (mx : JSNum)
    (minVal maxVal : Option JSNum) (_hlen : 2 ≤ data.length)
    (hh : IsDouble h) (hlo : IsDouble lo)
    (hb : effectiveBounds64 data minVal maxVal = (fin lo, mx))
    (i : Nat) (v : ℚ) (hv : data[i]? = some (fin v)) :
    ((mx = posInf ∨ mx = negInf ∨ ∃ hi : ℚ, mx = fin hi ∧ IsDouble hi ∧ hi ≠ lo) → v = lo →
      ((polylinePoints64 data (fin h) minVal maxVal)[i]?).map Prod.snd = some (fin h))
    ∧ (∀ hi : ℚ, mx = fin hi → IsDouble hi → lo < hi →
        JSNum.sub64 (fin hi) (fin lo) ≠ posInf → v = hi →
        ((polylinePoints64 data (fin h) minVal maxVal)[i]?).map Prod.snd = some (fin 0)) := by
  rw [polylinePoints64_snd_fin data (fin h) minVal maxVal i v hv, hb]
  constructor
  · intro hmx hvlo
    rw [hvlo, scaleY64_at_min h lo mx hh hlo hmx]
  · intro hi hmxe hhi hlt hov hvhi
    rw [hvhi, hmxe, scaleY64_at_max h lo hi hh hlo hhi hlt hov]

/-- An instance with derived bounds: of the samples 3 and 8 the first lands on the height 10
and the second on 0. -/
theorem edge_samples_map_to_edges_witness :
    (2 ≤ [fin 3, fin 8].length ∧ IsDouble 10 ∧ IsDouble 3 ∧ IsDouble 8
      ∧ effectiveBounds64 [fin 3, fin 8] none none = (fin 3, fin 8))
    ∧ ((polylinePoints64 [fin 3, fin 8] (fin 10) none none)[0]?).map Prod.snd = some (fin 10)
    ∧ ((polylinePoints64 [fin 3, fin 8] (fin 10) none none)[1]?).map Prod.snd = some (fin 0) :=
  ⟨⟨by decide, by decide!, by decide!, by decide!, by decide!⟩,
   (edge_samples_map_to_edges [fin 3, fin 8] 10 3 (fin 8) none none (by decide) (by decide!)
      (by decide!) (by decide!) 0 3 rfl).1
      (Or.inr (Or.inr ⟨8, rfl, by decide!, by norm_num⟩)) rfl,
   (edge_samples_map_to_edges [fin 3, fin 8] 10 3 (fin 8) none none (by decide) (by decide!)
      (by decide!) (by decide!) 1 8 rfl).2 8 rfl (by decide!) (by norm_num) (by decide!) rfl⟩

/-- C4 (as stated) fails, in binary64 arithmetic. With the supplied bounds `min = max = 5`,
and with `min = 5`, `max = NaN`, a sample equal to the minimum gets `y = NaN`, not the height.
With the height `+Infinity` and derived bounds the sample equal to the minimum gets `NaN`.
With the supplied bounds `-Infinity` and 5 a sample equal to the maximum gets `NaN`, not 0.
With the supplied bounds `min = 8 > max = 3` a sample equal to the maximum gets the height.
With the samples `-(2^1023)`, 0, `2^1023` and derived bounds the range overflows and the
sample equal to the maximum gets `NaN`. -/
theorem edges_fail_outside_proper_bounds :
    getPolyline64 (some [fin 5, fin 5]) (fin 10) (some (fin 5)) (some (fin 5)) = "0,NaN 100,NaN"
    ∧ getPolyline64 (some [fin 5, fin 5]) (fin 10) (some (fin 5)) (some nan) = "0,NaN 100,NaN"
    ∧ getPolyline64 (some [fin 0, fin 1]) posInf none none = "0,NaN 100,NaN"
    ∧ getPolyline64 (some [fin 5, fin 5]) (fin 10) (some negInf) (some (fin 5))
        = "0,NaN 100,NaN"
    ∧ getPolyline64 (some [fin 3, fin 3]) (fin 10) (some (fin 8)) (some (fin 3)) = "0,10 100,10"
    ∧ (IsDouble ((2 : ℚ) ^ (1023 : ℤ))
      ∧ effectiveBounds64 [fin (-(2 : ℚ) ^ (1023 : ℤ)), fin 0, fin ((2 : ℚ) ^ (1023 : ℤ))]
          none none = (fin (-(2 : ℚ) ^ (1023 : ℤ)), fin ((2 : ℚ) ^ (1023 : ℤ)))
      ∧ getPolyline64 (some [fin (-(2 : ℚ) ^ (1023 : ℤ)), fin 0, fin ((2 : ℚ) ^ (1023 : ℤ))])
          (fin 10) none none = "0,10 50,10 100,NaN") := by
  decide!

/-- The derived bounds of data whose finite samples all equal `c`, before rounding. -/
theorem derivedBounds64_flat (data : List JSNum) (c : ℚ)
    (hflat : ∀ q, fin q ∈ data → q = c) (hex : fin c ∈ data) :
    derivedBounds64 data = (round64 (c - 1), round64 (c + 1)) := by
  have hv : data.filter isFinite ≠ [] := by
    intro h
    have := (fin_mem_filter data c).2 hex
    rw [h] at this
    cases this
  have hfin : ∀ v ∈ data.filter isFinite, isFinite v = true :=
    fun v h => (List.mem_filter.1 h).2
  obtain ⟨m, hm, hmmem, _⟩ := mathMin_finite _ hfin hv
  obtain ⟨M, hM, hMmem, _⟩ := mathMax_finite _ hfin hv
  have em : m = c := hflat m ((fin_mem_filter data m).1 hmmem)
  have eM : M = c := hflat M ((fin_mem_filter data M).1 hMmem)
  have hlen : (data.filter isFinite).length ≠ 0 := by
    intro h; exact hv (List.length_eq_zero.1 h)
  subst em eM
  simp [derivedBounds64, hlen, hm, hM, strictEq, JSNum.sub64, JSNum.add64]

/-- C7 (as amended): with derived bounds, at least two samples, and all finite samples equal
to one value `c` (at least one of them), in binary64 arithmetic: when `c - 1` and `c + 1` are
binary64 numbers (line 21 does not round), the bounds are `c - 1` and `c + 1` and the range
is 2; when moreover the height `h` is finite and `h / 2` is a binary64 number, every finite
sample is mapped to `y = h / 2`. The scenario `getPolyline([5, 5, 5], 10)` gives the text
0,5 50,5 100,5. -/
theorem flat_series_mid_height64 (data : List JSNum) (h c : ℚ) (minVal maxVal : Option JSNum)
    (_hlen : 2 ≤ data.length) (hd : minVal = none ∨ maxVal = none)
    (hflat : ∀ q, fin q ∈ data → q = c) (hex : fin c ∈ data)
    (hlo : IsDouble (c - 1)) (hhi : IsDouble (c + 1)) (hhalf : IsDouble (h / 2)) :
    effectiveBounds64 data minVal maxVal = (fin (c - 1), fin (c + 1))
    ∧ JSNum.sub64 (effectiveBounds64 data minVal maxVal).2
        (effectiveBounds64 data minVal maxVal).1 = fin 2
    ∧ (∀ (i : Nat) (q : ℚ), data[i]? = some (fin q) →
        ((polylinePoints64 data (fin h) minVal maxVal)[i]?).map Prod.snd = some (fin (h / 2)))
    ∧ getPolyline64 (some [fin 5, fin 5, fin 5]) (fin 10) none none = "0,5 50,5 100,5" := by
  have hbd : effectiveBounds64 data minVal maxVal = (fin (c - 1), fin (c + 1)) := by
    rw [effectiveBounds64_derived _ _ _ hd, derivedBounds64_flat data c hflat hex,
      show round64 (c - 1) = fin (c - 1) from hlo, show round64 (c + 1) = fin (c + 1) from hhi]
  have h2 : round64 2 = fin 2 := by decide!
  have hhalf1 : round64 (1 / 2) = fin (1 / 2) := by decide!
  have hrange : JSNum.sub64 (fin (c + 1)) (fin (c - 1)) = fin 2 := by
    rw [sub64_fin, show c + 1 - (c - 1) = 2 by ring, h2]
  refine ⟨hbd, by rw [hbd]; exact hrange, ?_, by decide!⟩
  intro i q hq
  have hqc : q = c := hflat q (List.getElem?_mem hq)
  rw [polylinePoints64_snd_fin data (fin h) minVal maxVal i q hq, hbd, hqc]
  have hc : mathMax [fin (c - 1), mathMin [fin (c + 1), fin c]] = fin c := by
    rw [mathMin_pair, mathMax_pair, clamp_inside _ _ _ (by linarith) (by linarith)]
  unfold scaleY64
  simp only [hc, hrange]
  rw [sub64_fin, show c - (c - 1) = 1 by ring, round64_one, div64_fin _ _ (by norm_num), hhalf1,
    mul64_fin, show 1 / 2 * h = h / 2 by ring, show round64 (h / 2) = fin (h / 2) from hhalf,
    sub64_fin, show h - h / 2 = h / 2 by ring, show round64 (h / 2) = fin (h / 2) from hhalf]

/-- An instance of a flat series: the scenario `[5, 5, 5]` with height 10. -/
theorem flat_series_mid_height64_witness :
    (2 ≤ [fin 5, fin 5, fin 5].length ∧ IsDouble (5 - 1) ∧ IsDouble (5 + 1) ∧ IsDouble (10 / 2))
    ∧ effectiveBounds64 [fin 5, fin 5, fin 5] none none = (fin (5 - 1), fin (5 + 1))
    ∧ ((polylinePoints64 [fin 5, fin 5, fin 5] (fin 10) none none)[2]?).map Prod.snd
        = some (fin (10 / 2)) :=
  ⟨⟨by decide, by decide!, by decide!, by decide!⟩,
   (flat_series_mid_height64 [fin 5, fin 5, fin 5] 10 5 none none (by decide) (Or.inl rfl)
      (by intro q hq; simp at hq; exact hq) (by simp) (by decide!) (by decide!)
      (by decide!)).1,
   (flat_series_mid_height64 [fin 5, fin 5, fin 5] 10 5 none none (by decide) (Or.inl rfl)
      (by intro q hq; simp at hq; exact hq) (by simp) (by decide!) (by decide!)
      (by decide!)).2.2.1 2 5 rfl⟩

/-- C7 (as stated) fails, in binary64 arithmetic. For the flat series of the binary64 number
3.174 and the height 10, the bounds are 2.174 and 4.1739999999999995, the range is
1.9999999999999996 and y is 4.999999999999999, not 5. For the flat series 5, 5 and the
height `+Infinity`, y is `NaN`. For the flat series `2^53`, `2^53` the `+ 1` of line 21 is
lost, the range is 1 and y is 0. -/
theorem flat_series_not_at_mid_height :
    (round64 (3174 / 1000) = fin (7147212608636977 / 2251799813685248)
      ∧ numberToString64 (derivedBounds64 [fin (7147212608636977 / 2251799813685248),
          fin (7147212608636977 / 2251799813685248)]).1 = "2.174"
      ∧ numberToString64 (derivedBounds64 [fin (7147212608636977 / 2251799813685248),
          fin (7147212608636977 / 2251799813685248)]).2 = "4.1739999999999995"
      ∧ numberToString64 (JSNum.sub64
          (derivedBounds64 [fin (7147212608636977 / 2251799813685248),
            fin (7147212608636977 / 2251799813685248)]).2
          (derivedBounds64 [fin (7147212608636977 / 2251799813685248),
            fin (7147212608636977 / 2251799813685248)]).1) = "1.9999999999999996"
      ∧ getPolyline64 (some [fin (7147212608636977 / 2251799813685248),
          fin (7147212608636977 / 2251799813685248)]) (fin 10) none none
          = "0,4.999999999999999 100,4.999999999999999")
    ∧ getPolyline64 (some [fin 5, fin 5]) posInf none none = "0,NaN 100,NaN"
    ∧ (IsDouble ((2 : ℚ) ^ (53 : ℤ))
      ∧ derivedBounds64 [fin ((2 : ℚ) ^ (53 : ℤ)), fin ((2 : ℚ) ^ (53 : ℤ))]
          = (fin ((2 : ℚ) ^ (53 : ℤ) - 1), fin ((2 : ℚ) ^ (53 : ℤ)))
      ∧ getPolyline64 (some [fin ((2 : ℚ) ^ (53 : ℤ)), fin ((2 : ℚ) ^ (53 : ℤ))]) (fin 10)
          none none = "0,0 100,0") := by
  decide!

/-- C8 fails on the code at the flat series `2^60`, `2^60` (1152921504606846976): in
binary64 arithmetic the `+ 1` and `- 1` of line 21 are lost, the derived bounds stay equal,
the range is 0, and the output is 0,NaN 100,NaN. -/
theorem widening_lost_for_large_flat_series :
    IsDouble ((2 : ℚ) ^ (60 : ℤ))
    ∧ derivedBounds64 [fin ((2 : ℚ) ^ (60 : ℤ)), fin ((2 : ℚ) ^ (60 : ℤ))]
        = (fin ((2 : ℚ) ^ (60 : ℤ)), fin ((2 : ℚ) ^ (60 : ℤ)))
    ∧ JSNum.sub64 (derivedBounds64 [fin ((2 : ℚ) ^ (60 : ℤ)), fin ((2 : ℚ) ^ (60 : ℤ))]).2
        (derivedBounds64 [fin ((2 : ℚ) ^ (60 : ℤ)), fin ((2 : ℚ) ^ (60 : ℤ))]).1 = fin 0
    ∧ getPolyline64 (some [fin ((2 : ℚ) ^ (60 : ℤ)), fin ((2 : ℚ) ^ (60 : ℤ))]) (fin 10)
        none none = "0,NaN 100,NaN" := by
  decide!

/-! ## Facts about the errors raised -/

theorem boundsChecked_ok (maxArgs : Nat) (d : List JSNum) (minVal maxVal : Option JSNum)
    (h : (minVal.isSome ∧ maxVal.isSome) ∨ (d.filter isFinite).length ≤ maxArgs) :
    boundsChecked maxArgs d minVal maxVal = Except.ok (effectiveBounds64 d minVal maxVal) := by
  cases minVal with
  | some lo =>
    cases maxVal with
    | some hi => rfl
    | none =>
      have hle : ¬ maxArgs < (d.filter isFinite).length := by
        rcases h with ⟨_, h⟩ | h
        · simp at h
        · omega
      by_cases hv : (d.filter isFinite).length = 0
      · simp [boundsChecked, effectiveBounds64, derivedBounds64, hv, bind, Except.bind]
      · simp [boundsChecked, effectiveBounds64, derivedBounds64, hv, bind, Except.bind,
          mathMinSpread, mathMaxSpread, hle]
  | none =>
    have hle : ¬ maxArgs < (d.filter isFinite).length := by
      rcases h with ⟨h, _⟩ | h
      · simp at h
      · omega
    by_cases hv : (d.filter isFinite).length = 0
    · simp [boundsChecked, effectiveBounds64, derivedBounds64, hv, bind, Except.bind]
    · simp [boundsChecked, effectiveBounds64, derivedBounds64, hv, bind, Except.bind,
        mathMinSpread, mathMaxSpread, hle]

/-- When both bounds are supplied, or the finite samples are no more than the engine accepts
as arguments, nothing is raised and the result is the text of the function. -/
theorem getPolylineChecked_ok (maxArgs : Nat) (data : Option (List JSNum)) (height : JSNum)
    (minVal maxVal : Option JSNum)
    (h : (minVal.isSome ∧ maxVal.isSome)
      ∨ ∀ d, data = some d → (d.filter isFinite).length ≤ maxArgs) :
    getPolylineChecked maxArgs data height minVal maxVal
      = Except.ok (getPolyline64 data height minVal maxVal) := by
  cases data with
  | none => rfl
  | some d =>
    have hb : boundsChecked maxArgs d minVal maxVal
        = Except.ok (effectiveBounds64 d minVal maxVal) := by
      apply boundsChecked_ok
      rcases h with h | h
      · exact Or.inl h
      · exact Or.inr (h d rfl)
    by_cases hlen : d.length < 2
    · simp [getPolylineChecked, getPolyline64, arrayOf, hlen, bind, Except.bind]
    · simp [getPolylineChecked, getPolyline64, arrayOf, hlen, bind, Except.bind, hb,
        polylinePoints64]

/-- C12 fails on the code: with no bounds supplied and more finite samples than the engine
accepts as arguments of one call (here `maxArgs + 2` samples 0), the spread call
`Math.min(...validData)` of line 17 raises a RangeError instead of returning a text. -/
theorem spread_call_raises (maxArgs : Nat) :
    getPolylineChecked maxArgs (some (List.replicate (maxArgs + 2) (fin 0))) (fin 10) none none
      = Except.error Fault.rangeError := by
  have hf : (List.replicate (maxArgs + 2) (fin 0)).filter isFinite
      = List.replicate (maxArgs + 2) (fin 0) := by
    apply List.filter_eq_self.2
    intro a ha
    rw [(List.mem_replicate.1 ha).2]
    rfl
  simp [getPolylineChecked, arrayOf, boundsChecked, hf, mathMinSpread, bind, Except.bind]

theorem roundPos_one : roundPos 1 = 1 := by decide!

/-- A subtraction with a non-negative exact result that does not overflow. -/
theorem sub64_finite {a b : ℚ} (hab : b ≤ a) (hov : JSNum.sub64 (fin a) (fin b) ≠ posInf) :
    JSNum.sub64 (fin a) (fin b) = fin (roundPos (a - b))
    ∧ roundPos (a - b) < (2 : ℚ) ^ (1024 : ℤ) := by
  have h0 : 0 ≤ a - b := by linarith
  rw [sub64_fin] at hov ⊢
  have hlt : roundPos (a - b) < (2 : ℚ) ^ (1024 : ℤ) := by
    by_contra hcon
    exact hov (round64_overflow _ h0 (not_lt.1 hcon))
  exact ⟨round64_of_nonneg _ h0 hlt, hlt⟩

/-- The scaling of lines 30-31 step by step, for finite bounds `lo < hi` whose range does not
overflow and a finite height `h ≥ 0`: every intermediate result is finite, the clamped
fraction lies between 0 and 1, and `y` lies between 0 and `h`. -/
theorem scaleY64_finite (h lo hi v : ℚ) (hh0 : 0 ≤ h) (hh : IsDouble h) (hlo : IsDouble lo)
    (hhi : IsDouble hi) (hlt : lo < hi) (hov : JSNum.sub64 (fin hi) (fin lo) ≠ posInf) :
    scaleY64 (fin h) (fin lo) (fin hi) (fin v) = fin (yOf64 h lo hi v)
    ∧ 0 ≤ fraction64 lo hi v ∧ fraction64 lo hi v ≤ 1
    ∧ roundPos (fraction64 lo hi v * h) ≤ h
    ∧ 0 ≤ yOf64 h lo hi v ∧ yOf64 h lo hi v ≤ h := by
  obtain ⟨hheq, hhlt⟩ := hh.roundPos_eq hh0
  have hrpos : 0 < roundPos (hi - lo) := roundPos_sub_pos hlo hhi hlt
  obtain ⟨hr, hrfin⟩ := sub64_finite (le_of_lt hlt) hov
  have hc1 : lo ≤ max lo (min hi v) := le_max_left _ _
  have hc2 : max lo (min hi v) ≤ hi := max_le (le_of_lt hlt) (min_le_left _ _)
  have hc : mathMax [fin lo, mathMin [fin hi, fin v]] = fin (max lo (min hi v)) := by
    rw [mathMin_pair, mathMax_pair]
  -- the numerator
  have hn0 : 0 ≤ roundPos (max lo (min hi v) - lo) := roundPos_nonneg _ (by linarith)
  have hnr : roundPos (max lo (min hi v) - lo) ≤ roundPos (hi - lo) :=
    roundPos_mono (by linarith) (by linarith)
  have hnum : JSNum.sub64 (fin (max lo (min hi v))) (fin lo)
      = fin (roundPos (max lo (min hi v) - lo)) := by
    rw [sub64_fin]
    exact round64_of_nonneg _ (by linarith) (lt_of_le_of_lt hnr hrfin)
  -- the fraction
  have hq0 : 0 ≤ roundPos (max lo (min hi v) - lo) / roundPos (hi - lo) :=
    div_nonneg hn0 (le_of_lt hrpos)
  have hq1 : roundPos (max lo (min hi v) - lo) / roundPos (hi - lo) ≤ 1 :=
    (div_le_one hrpos).2 hnr
  have ht0 : 0 ≤ fraction64 lo hi v := roundPos_nonneg _ hq0
  have ht1 : fraction64 lo hi v ≤ 1 := by
    have := roundPos_mono hq0 hq1
    rwa [roundPos_one] at this
  have h1024 : (1 : ℚ) < (2 : ℚ) ^ (1024 : ℤ) := by
    have : (2 : ℚ) ^ (0 : ℤ) < (2 : ℚ) ^ (1024 : ℤ) := two_zpow_lt_iff.2 (by norm_num)
    simpa using this
  have hfrac : JSNum.div64 (fin (roundPos (max lo (min hi v) - lo))) (fin (roundPos (hi - lo)))
      = fin (fraction64 lo hi v) := by
    rw [div64_fin _ _ (ne_of_gt hrpos)]
    exact round64_of_nonneg _ hq0 (lt_of_le_of_lt ht1 h1024)
  -- the product
  have hm0 : 0 ≤ fraction64 lo hi v * h := mul_nonneg ht0 hh0
  have hm1 : fraction64 lo hi v * h ≤ h := by
    have := mul_le_mul_of_nonneg_right ht1 hh0
    linarith
  have hp0 : 0 ≤ roundPos (fraction64 lo hi v * h) := roundPos_nonneg _ hm0
  have hp1 : roundPos (fraction64 lo hi v * h) ≤ h := by
    have := roundPos_mono hm0 hm1
    rwa [hheq] at this
  have hprod : JSNum.mul64 (fin (fraction64 lo hi v)) (fin h)
      = fin (roundPos (fraction64 lo hi v * h)) := by
    rw [mul64_fin]
    exact round64_of_nonneg _ hm0 (lt_of_le_of_lt hp1 hhlt)
  -- the difference
  have hd0 : 0 ≤ h - roundPos (fraction64 lo hi v * h) := by linarith
  have hy0 : 0 ≤ yOf64 h lo hi v := roundPos_nonneg _ hd0
  have hy1 : yOf64 h lo hi v ≤ h := by
    have := roundPos_mono hd0 (show h - roundPos (fraction64 lo hi v * h) ≤ h by linarith)
    rwa [hheq] at this
  have hdiff : JSNum.sub64 (fin h) (fin (roundPos (fraction64 lo hi v * h)))
      = fin (yOf64 h lo hi v) := by
    rw [sub64_fin]
    exact round64_of_nonneg _ hd0 (lt_of_le_of_lt hy1 hhlt)
  refine ⟨?_, ht0, ht1, hp1, hy0, hy1⟩
  unfold scaleY64
  simp only [hc]
  rw [hr, hnum, hfrac, hprod, hdiff]

/-- Between finite bounds a larger sample never gets a larger `y`. -/
theorem yOf64_antitone (h lo hi v₁ v₂ : ℚ) (hh0 : 0 ≤ h) (hh : IsDouble h) (hlo : IsDouble lo)
    (hhi : IsDouble hi) (hlt : lo < hi) (hov : JSNum.sub64 (fin hi) (fin lo) ≠ posInf)
    (hv : v₁ ≤ v₂) : yOf64 h lo hi v₂ ≤ yOf64 h lo hi v₁ := by
  have hrpos : 0 < roundPos (hi - lo) := roundPos_sub_pos hlo hhi hlt
  obtain ⟨_, ht0, _, _, _, _⟩ := scaleY64_finite h lo hi v₁ hh0 hh hlo hhi hlt hov
  obtain ⟨_, _, _, hp2, _, _⟩ := scaleY64_finite h lo hi v₂ hh0 hh hlo hhi hlt hov
  have hc1 : lo ≤ max lo (min hi v₁) := le_max_left _ _
  have hc := clamp_mono lo hi v₁ v₂ hv
  have hn : roundPos (max lo (min hi v₁) - lo) ≤ roundPos (max lo (min hi v₂) - lo) :=
    roundPos_mono (by linarith) (by linarith)
  have hn0 : 0 ≤ roundPos (max lo (min hi v₁) - lo) := roundPos_nonneg _ (by linarith)
  have ht : fraction64 lo hi v₁ ≤ fraction64 lo hi v₂ :=
    roundPos_mono (div_nonneg hn0 (le_of_lt hrpos))
      (div_le_div_of_nonneg_right hn (le_of_lt hrpos))
  have hp : roundPos (fraction64 lo hi v₁ * h) ≤ roundPos (fraction64 lo hi v₂ * h) :=
    roundPos_mono (mul_nonneg ht0 hh0) (mul_le_mul_of_nonneg_right ht hh0)
  exact roundPos_mono (by linarith) (by linarith)

/-- With `max = +Infinity` and a finite `min` every finite sample whose distance to `min`
does not overflow lands on the height. -/
theorem scaleY64_posInf (h lo v : ℚ) (hh : IsDouble h)
    (hov : JSNum.sub64 (fin (max lo v)) (fin lo) ≠ posInf) :
    scaleY64 (fin h) (fin lo) posInf (fin v) = fin h := by
  obtain ⟨hnum, _⟩ := sub64_finite (le_max_left lo v) hov
  have hc : mathMax [fin lo, mathMin [posInf, fin v]] = fin (max lo v) := by
    simp [mathMin, mathMax, List.foldl, min2, max2]
  unfold scaleY64
  simp only [hc]
  rw [hnum]
  have e1 : JSNum.sub64 posInf (fin lo) = posInf := rfl
  have e2 : JSNum.div64 (fin (roundPos (max lo v - lo))) posInf = fin 0 := rfl
  rw [e1, e2, mul64_fin, zero_mul, round64_zero, sub64_fin, sub_zero]
  exact hh

/-- C15 (as amended): the value axis is inverted, in binary64 arithmetic. For a finite height
`h > 0` and bounds in force with a finite `min` and a `max` above it, where no subtraction
overflows (`max - min` for a finite `max`, `v₂ - min` for `max = +Infinity`), two finite
samples `v₁ < v₂` of one sequence get finite `y(v₁) ≥ y(v₂)`. -/
theorem larger_value_not_higher_y (data : List JSNum) (h lo : ℚ) (mx : JSNum)
    (minVal maxVal : Option JSNum) (_hlen : 2 ≤ data.length) (hpos : 0 < h)
    (hh : IsDouble h) (hlo : IsDouble lo)
    (hb : effectiveBounds64 data minVal maxVal = (fin lo, mx))
    (i j : Nat) (v₁ v₂ : ℚ) (h₁ : data[i]? = some (fin v₁)) (h₂ : data[j]? = some (fin v₂))
    (hlt : v₁ < v₂)
    (hmx : (mx = posInf ∧ JSNum.sub64 (fin (max lo v₂)) (fin lo) ≠ posInf)
      ∨ ∃ hi : ℚ, mx = fin hi ∧ IsDouble hi ∧ lo < hi
          ∧ JSNum.sub64 (fin hi) (fin lo) ≠ posInf) :
    ∃ y₁ y₂ : ℚ,
      ((polylinePoints64 data (fin h) minVal maxVal)[i]?).map Prod.snd = some (fin y₁)
      ∧ ((polylinePoints64 data (fin h) minVal maxVal)[j]?).map Prod.snd = some (fin y₂)
      ∧ y₂ ≤ y₁ := by
  rw [polylinePoints64_snd_fin data (fin h) minVal maxVal i v₁ h₁,
    polylinePoints64_snd_fin data (fin h) minVal maxVal j v₂ h₂, hb]
  rcases hmx with ⟨rfl, hov⟩ | ⟨hi, rfl, hhi, hlohi, hov⟩
  · obtain ⟨_, hfin₂⟩ := sub64_finite (le_max_left lo v₂) hov
    have hov₁ : JSNum.sub64 (fin (max lo v₁)) (fin lo) ≠ posInf := by
      have hm : roundPos (max lo v₁ - lo) ≤ roundPos (max lo v₂ - lo) :=
        roundPos_mono (by linarith [le_max_left lo v₁])
          (by linarith [max_le_max (le_refl lo) (le_of_lt hlt)])
      rw [sub64_fin, round64_of_nonneg _ (by linarith [le_max_left lo v₁])
        (lt_of_le_of_lt hm hfin₂)]
      intro hcon
      cases hcon
    exact ⟨h, h, by rw [scaleY64_posInf h lo v₁ hh hov₁],
      by rw [scaleY64_posInf h lo v₂ hh hov], le_refl _⟩
  · have hh0 : 0 ≤ h := le_of_lt hpos
    exact ⟨yOf64 h lo hi v₁, yOf64 h lo hi v₂,
      by rw [(scaleY64_finite h lo hi v₁ hh0 hh hlo hhi hlohi hov).1],
      by rw [(scaleY64_finite h lo hi v₂ hh0 hh hlo hhi hlohi hov).1],
      yOf64_antitone h lo hi v₁ v₂ hh0 hh hlo hhi hlohi hov (le_of_lt hlt)⟩

/-- An instance with derived bounds: of the samples 2 and 6 the larger gets no larger y. -/
theorem larger_value_not_higher_y_witness :
    (2 ≤ [fin 2, fin 6].length ∧ (0 : ℚ) < 10 ∧ IsDouble 10 ∧ IsDouble 2
      ∧ effectiveBounds64 [fin 2, fin 6] none none = (fin 2, fin 6))
    ∧ ∃ y₁ y₂ : ℚ,
      ((polylinePoints64 [fin 2, fin 6] (fin 10) none none)[0]?).map Prod.snd = some (fin y₁)
      ∧ ((polylinePoints64 [fin 2, fin 6] (fin 10) none none)[1]?).map Prod.snd = some (fin y₂)
      ∧ y₂ ≤ y₁ :=
  ⟨⟨by decide, by norm_num, by decide!, by decide!, by decide!⟩,
   larger_value_not_higher_y [fin 2, fin 6] 10 2 (fin 6) none none (by decide) (by norm_num)
     (by decide!) (by decide!) (by decide!) 0 1 2 6 rfl rfl (by norm_num)
     (Or.inr ⟨6, rfl, by decide!, by norm_num, by decide!⟩)⟩

/-- C15 (as stated) fails, in binary64 arithmetic. With the samples 0, `2^(-70)`, `2^(-69)`,
1, the height 10 and derived bounds 0 and 1, the two middle samples, both inside the bounds,
get the same `y = 10`. With the samples `-(2^1023)`, 0, `2^1023` and derived bounds the range
overflows: the sample 0 gets 10 and the larger sample `2^1023` gets `NaN`; so it is with the
supplied bounds `-(2^1023)` and `+Infinity`, where `v - min` overflows. With the supplied
bounds `-Infinity` and 5, and with the height `+Infinity`, both samples get `NaN`; `>=` is
false of `NaN`. -/
theorem axis_inversion_fails_in_binary64 :
    (IsDouble ((2 : ℚ) ^ (-70 : ℤ)) ∧ IsDouble ((2 : ℚ) ^ (-69 : ℤ))
      ∧ effectiveBounds64 [fin 0, fin ((2 : ℚ) ^ (-70 : ℤ)), fin ((2 : ℚ) ^ (-69 : ℤ)), fin 1]
          none none = (fin 0, fin 1)
      ∧ (polylinePoints64 [fin 0, fin ((2 : ℚ) ^ (-70 : ℤ)), fin ((2 : ℚ) ^ (-69 : ℤ)), fin 1]
          (fin 10) none none).map Prod.snd = [fin 10, fin 10, fin 10, fin 0]
      ∧ JSNum.lt (fin 10) (fin 10) = false)
    ∧ ((polylinePoints64 [fin (-(2 : ℚ) ^ (1023 : ℤ)), fin 0, fin ((2 : ℚ) ^ (1023 : ℤ))]
          (fin 10) none none).map Prod.snd = [fin 10, fin 10, nan]
      ∧ JSNum.le nan (fin 10) = false)
    ∧ (polylinePoints64 [fin (-(2 : ℚ) ^ (1023 : ℤ)), fin ((2 : ℚ) ^ (1023 : ℤ))] (fin 10)
        (some (fin (-(2 : ℚ) ^ (1023 : ℤ)))) (some posInf)).map Prod.snd = [fin 10, nan]
    ∧ (polylinePoints64 [fin 1, fin 2] (fin 10) (some negInf) (some (fin 5))).map Prod.snd
        = [nan, nan]
    ∧ (polylinePoints64 [fin 1, fin 2] posInf none none).map Prod.snd = [nan, nan]
    ∧ JSNum.le nan nan = false := by
  decide!

/-- C17 (as amended): in binary64 arithmetic, for at least two samples, a finite height
`h ≥ 0` and bounds in force with a finite `min` and a `max` above it, where no subtraction
overflows (`max - min` for a finite `max`, `v - min` for the samples `v` for
`max = +Infinity`), every output y, of finite samples and of the others alike, is a finite
number between 0 and `h`. -/
theorem y_within_chart64 (data : List JSNum) (h lo : ℚ) (mx : JSNum)
    (minVal maxVal : Option JSNum) (_hlen : 2 ≤ data.length) (hh0 : 0 ≤ h)
    (hh : IsDouble h) (hlo : IsDouble lo)
    (hb : effectiveBounds64 data minVal maxVal = (fin lo, mx))
    (hmx : (mx = posInf
        ∧ ∀ v : ℚ, fin v ∈ data → JSNum.sub64 (fin (max lo v)) (fin lo) ≠ posInf)
      ∨ ∃ hi : ℚ, mx = fin hi ∧ IsDouble hi ∧ lo < hi
          ∧ JSNum.sub64 (fin hi) (fin lo) ≠ posInf)
    (i : Nat) (p : JSNum × JSNum)
    (hp : (polylinePoints64 data (fin h) minVal maxVal)[i]? = some p) :
    ∃ y : ℚ, p.2 = fin y ∧ 0 ≤ y ∧ y ≤ h := by
  rw [polylinePoints64_getElem?] at hp
  cases hv : data[i]? with
  | none => rw [hv] at hp; simp at hp
  | some v =>
    rw [hv, hb] at hp
    simp only [Option.map_some', Option.some.injEq] at hp
    subst hp
    cases hfin : isFinite v with
    | false =>
      rw [mapPoint64_not_finite _ _ _ _ _ _ hfin]
      exact ⟨h, rfl, hh0, le_refl _⟩
    | true =>
      obtain ⟨q, rfl⟩ := (isFinite_eq_true_iff v).1 hfin
      rw [mapPoint64_snd_fin]
      rcases hmx with ⟨rfl, hov⟩ | ⟨hi, rfl, hhi, hlohi, hov⟩
      · exact ⟨h, scaleY64_posInf h lo q hh (hov q (List.getElem?_mem hv)), hh0, le_refl _⟩
      · obtain ⟨hy, _, _, _, hy0, hy1⟩ := scaleY64_finite h lo hi q hh0 hh hlo hhi hlohi hov
        exact ⟨yOf64 h lo hi q, hy, hy0, hy1⟩

/-- An instance with supplied bounds narrower than the data: the sample 20 stays in the
chart. -/
theorem y_within_chart64_witness :
    (2 ≤ [fin 5, fin 20].length ∧ (0 : ℚ) ≤ 10 ∧ IsDouble 10 ∧ IsDouble 0 ∧ IsDouble 5)
    ∧ (polylinePoints64 [fin 5, fin 20] (fin 10) (some (fin 0)) (some (fin 5)))[1]?
        = some (fin 100, fin 0)
    ∧ ∃ y : ℚ, ((fin 100, fin 0) : JSNum × JSNum).2 = fin y ∧ 0 ≤ y ∧ y ≤ 10 :=
  ⟨⟨by decide, by norm_num, by decide!, by decide!, by decide!⟩, by decide!,
   y_within_chart64 [fin 5, fin 20] 10 0 (fin 5) (some (fin 0)) (some (fin 5)) (by decide)
     (by norm_num) (by decide!) (by decide!) rfl
     (Or.inr ⟨5, rfl, by decide!, by norm_num, by decide!⟩) 1 (fin 100, fin 0) (by decide!)⟩

/-- C17 (as stated) fails, in binary64 arithmetic. With the height 10, the finite samples
`-(2^1023)`, 0, `2^1023` and derived bounds (so `max > min`) the range overflows and the last
y is `NaN`; with the supplied bounds `-(2^1023)` and `+Infinity` the difference `v - min`
overflows for the sample `2^1023`, whose y is `NaN`. With the height 10 and the supplied
bounds `-Infinity` and 5 (so `max > min`) the samples 3 and 4 get `NaN`, and so they do with
the height `+Infinity` (so `height >= 0`) and derived bounds. `0 <= NaN` is false. -/
theorem y_leaves_chart_in_binary64 :
    (JSNum.lt (fin (-(2 : ℚ) ^ (1023 : ℤ))) (fin ((2 : ℚ) ^ (1023 : ℤ))) = true
      ∧ effectiveBounds64 [fin (-(2 : ℚ) ^ (1023 : ℤ)), fin 0, fin ((2 : ℚ) ^ (1023 : ℤ))]
          none none = (fin (-(2 : ℚ) ^ (1023 : ℤ)), fin ((2 : ℚ) ^ (1023 : ℤ)))
      ∧ (polylinePoints64 [fin (-(2 : ℚ) ^ (1023 : ℤ)), fin 0, fin ((2 : ℚ) ^ (1023 : ℤ))]
          (fin 10) none none)[2]? = some (fin 100, nan))
    ∧ getPolyline64 (some [fin (-(2 : ℚ) ^ (1023 : ℤ)), fin ((2 : ℚ) ^ (1023 : ℤ))]) (fin 10)
        (some (fin (-(2 : ℚ) ^ (1023 : ℤ)))) (some posInf) = "0,10 100,NaN"
    ∧ (JSNum.lt negInf (fin 5) = true
      ∧ getPolyline64 (some [fin 3, fin 4]) (fin 10) (some negInf) (some (fin 5))
          = "0,NaN 100,NaN")
    ∧ (JSNum.le (fin 0) posInf = true
      ∧ getPolyline64 (some [fin 3, fin 4]) posInf none none = "0,NaN 100,NaN")
    ∧ JSNum.le (fin 0) nan = false := by
  decide!

/-- The step of line 5 in binary64 for `2 ≤ n < 2^32` samples: `100 / (n - 1)` rounded once,
a finite number between `2^(-26)` and 100. -/
theorem stepOf64_eq (data : List JSNum) (hlen : 2 ≤ data.length) (hmax : data.length < 2 ^ 32) :
    stepOf64 data = fin (roundPos (100 / ((data.length : ℚ) - 1)))
    ∧ (1 : ℚ) / 67108864 ≤ roundPos (100 / ((data.length : ℚ) - 1))
    ∧ roundPos (100 / ((data.length : ℚ) - 1)) ≤ 100 := by
  have hcast : ((data.length : ℚ) - 1) = ((data.length - 1 : ℕ) : ℚ) := by
    rw [Nat.cast_sub (by omega)]; simp
  have h1 : (1 : ℚ) ≤ (data.length : ℚ) - 1 := by
    have : (2 : ℚ) ≤ (data.length : ℚ) := by exact_mod_cast hlen
    linarith
  have h2 : (data.length : ℚ) - 1 ≤ 4294967296 := by
    have hn : data.length < 4294967296 := by omega
    have : (data.length : ℚ) < 4294967296 := by exact_mod_cast hn
    linarith
  have hpos : (0 : ℚ) < (data.length : ℚ) - 1 := by linarith
  have hq0 : (0 : ℚ) ≤ 100 / ((data.length : ℚ) - 1) := le_of_lt (div_pos (by norm_num) hpos)
  have hq1 : 100 / ((data.length : ℚ) - 1) ≤ 100 := by
    rw [div_le_iff₀ hpos]
    nlinarith
  have hq2 : (1 : ℚ) / 67108864 ≤ 100 / ((data.length : ℚ) - 1) := by
    rw [le_div_iff₀ hpos]
    nlinarith
  have hlow : roundPos ((1 : ℚ) / 67108864) = 1 / 67108864 := by decide!
  have hhigh : roundPos 100 = 100 := by decide!
  have hs1 : (1 : ℚ) / 67108864 ≤ roundPos (100 / ((data.length : ℚ) - 1)) := by
    have := roundPos_mono (by norm_num) hq2
    rwa [hlow] at this
  have hs2 : roundPos (100 / ((data.length : ℚ) - 1)) ≤ 100 := by
    have := roundPos_mono hq0 hq1
    rwa [hhigh] at this
  have h1024 : (100 : ℚ) < (2 : ℚ) ^ (1024 : ℤ) := by decide!
  refine ⟨?_, hs1, hs2⟩
  unfold stepOf64
  simp only
  rw [sub64_fin, hcast, round64_natCast _ (by omega), div64_fin _ _ (by rw [← hcast]; linarith),
    ← hcast]
  exact round64_of_nonneg _ hq0 (lt_of_le_of_lt hs2 h1024)

/-- The x of index `i` in binary64: the product `i * step` rounded once, a finite number. -/
theorem x64_eq (s : ℚ) (hs0 : 0 ≤ s) (hs : s ≤ 100) (i : Nat) (hi : i < 2 ^ 32) :
    JSNum.mul64 (fin (i : ℚ)) (fin s) = fin (roundPos ((i : ℚ) * s)) := by
  have hi' : (i : ℚ) ≤ 4294967296 := by
    have hn : i < 4294967296 := by omega
    have : (i : ℚ) < 4294967296 := by exact_mod_cast hn
    linarith
  have hi0 : (0 : ℚ) ≤ (i : ℚ) := by positivity
  have hp0 : 0 ≤ (i : ℚ) * s := mul_nonneg hi0 hs0
  have hp1 : (i : ℚ) * s ≤ 429496729600 := by nlinarith
  have hfix : roundPos 429496729600 = 429496729600 := by decide!
  have hle : roundPos ((i : ℚ) * s) ≤ 429496729600 := by
    have := roundPos_mono hp0 hp1
    rwa [hfix] at this
  have h1024 : (429496729600 : ℚ) < (2 : ℚ) ^ (1024 : ℤ) := by decide!
  rw [mul64_fin]
  exact round64_of_nonneg _ hp0 (lt_of_le_of_lt hle h1024)

/-- Rounded multiples of a step of at least `2^(-26)` grow strictly with the index, for
indices below `2^32`. -/
theorem roundPos_mul_strict (s : ℚ) (hs : (1 : ℚ) / 67108864 ≤ s) (i j : Nat) (hij : i < j)
    (hj : j < 2 ^ 32) : roundPos ((i : ℚ) * s) < roundPos ((j : ℚ) * s) := by
  have hspos : 0 < s := lt_of_lt_of_le (by norm_num) hs
  have hu : (2 : ℚ) ^ (-53 : ℤ) = 1 / 9007199254740992 := by norm_num
  have hnormal : (2 : ℚ) ^ (-1022 : ℤ) ≤ 1 / 67108864 := by decide!
  have hi0 : (0 : ℚ) ≤ (i : ℚ) := by positivity
  have hj1 : (1 : ℚ) ≤ (j : ℚ) := by exact_mod_cast (by omega : 1 ≤ j)
  have hij' : (i : ℚ) + 1 ≤ (j : ℚ) := by exact_mod_cast hij
  have hj' : (j : ℚ) ≤ 4294967296 := by
    have hn : j < 4294967296 := by omega
    have : (j : ℚ) < 4294967296 := by exact_mod_cast hn
    linarith
  -- the larger product is in the normal range
  have hB : (2 : ℚ) ^ (-1022 : ℤ) ≤ (j : ℚ) * s := by
    have : s ≤ (j : ℚ) * s := by nlinarith
    exact le_trans hnormal (le_trans hs this)
  have eB := roundPos_rel_error _ hB
  rw [hu, abs_le] at eB
  -- the smaller product is zero or in the normal range
  have eA : roundPos ((i : ℚ) * s) ≤ (i : ℚ) * s + (i : ℚ) * s * (1 / 9007199254740992) := by
    rcases Nat.eq_zero_or_pos i with rfl | hipos
    · simp [roundPos_zero]
    · have hi1 : (1 : ℚ) ≤ (i : ℚ) := by exact_mod_cast hipos
      have hA : (2 : ℚ) ^ (-1022 : ℤ) ≤ (i : ℚ) * s := by
        have : s ≤ (i : ℚ) * s := by nlinarith
        exact le_trans hnormal (le_trans hs this)
      have eA := roundPos_rel_error _ hA
      rw [hu, abs_le] at eA
      linarith [eA.2]
  have hkey : (i : ℚ) * s + (i : ℚ) * s * (1 / 9007199254740992)
      < (j : ℚ) * s - (j : ℚ) * s * (1 / 9007199254740992) := by
    have h1 : (i : ℚ) + (i : ℚ) * (1 / 9007199254740992)
        < (j : ℚ) - (j : ℚ) * (1 / 9007199254740992) := by linarith
    have := mul_lt_mul_of_pos_right h1 hspos
    linarith
  linarith [eB.1]

/-- C16 (as amended): in binary64 arithmetic, for `2 ≤ n < 2^32` samples (every array is
shorter than `2^32`) the step is `100 / (n - 1)` rounded, a positive number, and the x of the
pair at index `i` is `i * step` rounded, whether the sample is finite or not; the x-coordinates
are finite and grow strictly with the index. -/
theorem x_strictly_increasing64 (data : List JSNum) (height : JSNum)
    (minVal maxVal : Option JSNum) (hlen : 2 ≤ data.length) (hmax : data.length < 2 ^ 32) :
    stepOf64 data = round64 (100 / ((data.length : ℚ) - 1))
    ∧ (∃ s : ℚ, stepOf64 data = fin s ∧ 0 < s)
    ∧ (∀ (i : Nat) (v : JSNum), data[i]? = some v →
        (polylinePoints64 data height minVal maxVal)[i]?
          = some (mapPoint64 (stepOf64 data) height (effectiveBounds64 data minVal maxVal).1
              (effectiveBounds64 data minVal maxVal).2 i v)
        ∧ ((polylinePoints64 data height minVal maxVal)[i]?).map Prod.fst
          = some (JSNum.mul64 (fin (i : ℚ)) (stepOf64 data))
        ∧ ∃ x : ℚ, JSNum.mul64 (fin (i : ℚ)) (stepOf64 data) = fin x)
    ∧ (∀ (i j : Nat) (x x' : ℚ), i < j →
        ((polylinePoints64 data height minVal maxVal)[i]?).map Prod.fst = some (fin x) →
        ((polylinePoints64 data height minVal maxVal)[j]?).map Prod.fst = some (fin x') →
        x < x') := by
  obtain ⟨hstep, hs1, hs2⟩ := stepOf64_eq data hlen hmax
  have hs0 : 0 < roundPos (100 / ((data.length : ℚ) - 1)) := lt_of_lt_of_le (by norm_num) hs1
  have h1024 : (100 : ℚ) < (2 : ℚ) ^ (1024 : ℤ) := by decide!
  have hq0 : (0 : ℚ) ≤ 100 / ((data.length : ℚ) - 1) := by
    have : (2 : ℚ) ≤ (data.length : ℚ) := by exact_mod_cast hlen
    exact le_of_lt (div_pos (by norm_num) (by linarith))
  have hfst : ∀ (k : Nat) (v : JSNum), data[k]? = some v →
      ((polylinePoints64 data height minVal maxVal)[k]?).map Prod.fst
        = some (fin (roundPos ((k : ℚ) * roundPos (100 / ((data.length : ℚ) - 1))))) := by
    intro k v hk
    have hklt : k < data.length := by
      by_contra hcon
      rw [List.getElem?_eq_none (not_lt.1 hcon)] at hk
      cases hk
    rw [polylinePoints64_getElem?, hk]
    simp only [Option.map_some', mapPoint64_fst, hstep]
    rw [x64_eq _ (le_of_lt hs0) hs2 k (by omega)]
  refine ⟨?_, ⟨_, hstep, hs0⟩, ?_, ?_⟩
  · rw [hstep, round64_of_nonneg _ hq0 (lt_of_le_of_lt hs2 h1024)]
  · intro i v hv
    have hilt : i < data.length := by
      by_contra hcon
      rw [List.getElem?_eq_none (not_lt.1 hcon)] at hv
      cases hv
    refine ⟨by rw [polylinePoints64_getElem?, hv]; rfl, ?_, ?_⟩
    · rw [polylinePoints64_getElem?, hv]
      simp [mapPoint64_fst]
    · exact ⟨_, by rw [hstep]; exact x64_eq _ (le_of_lt hs0) hs2 i (by omega)⟩
  · intro i j x x' hij hx hx'
    have hsome : ∀ (k : Nat) (z : ℚ),
        ((polylinePoints64 data height minVal maxVal)[k]?).map Prod.fst = some (fin z) →
        k < data.length
        ∧ z = roundPos ((k : ℚ) * roundPos (100 / ((data.length : ℚ) - 1))) := by
      intro k z hz
      cases hk : data[k]? with
      | none =>
        rw [polylinePoints64_getElem?, hk] at hz
        simp at hz
      | some v =>
        have hklt : k < data.length := by
          by_contra hcon
          rw [List.getElem?_eq_none (not_lt.1 hcon)] at hk
          cases hk
        rw [hfst k v hk] at hz
        injection hz with hz
        injection hz with hz
        exact ⟨hklt, hz.symm⟩
    obtain ⟨_, ex⟩ := hsome i x hx
    obtain ⟨hjlt, ex'⟩ := hsome j x' hx'
    rw [ex, ex']
    exact roundPos_mul_strict _ hs1 i j hij (by omega)

/-- An instance with three samples, the middle one not finite: the x-coordinates are 0, 50
and 100. -/
theorem x_strictly_increasing64_witness :
    (2 ≤ [fin 1, nan, fin 3].length ∧ [fin 1, nan, fin 3].length < 2 ^ 32)
    ∧ ((polylinePoints64 [fin 1, nan, fin 3] (fin 20) none none)[1]?).map Prod.fst
        = some (JSNum.mul64 (fin ((1 : ℕ) : ℚ)) (stepOf64 [fin 1, nan, fin 3]))
    ∧ stepOf64 [fin 1, nan, fin 3] = fin 50 :=
  ⟨⟨by decide, by decide⟩,
   ((x_strictly_increasing64 [fin 1, nan, fin 3] (fin 20) none none (by decide)
      (by decide)).2.2.1 1 nan rfl).2.1,
   by decide!⟩

/-- C16 (as stated) fails, in binary64 arithmetic. For the four samples 1, 2, 3, 4 the step
is 33.333333333333336, not `100 / 3`, and the x-coordinates are 0, 33.333333333333336,
66.66666666666667 and 100: the last gap is smaller than the first two. -/
theorem x_not_equally_spaced_in_binary64 :
    stepOf64 [fin 1, fin 2, fin 3, fin 4] = fin (4691249611844267 / 140737488355328)
    ∧ (4691249611844267 / 140737488355328 : ℚ) ≠ 100 / 3
    ∧ (polylinePoints64 [fin 1, fin 2, fin 3, fin 4] (fin 10) none none).map Prod.fst
        = [fin 0, fin (4691249611844267 / 140737488355328),
            fin (4691249611844267 / 70368744177664), fin 100]
    ∧ (100 - 4691249611844267 / 70368744177664 : ℚ)
        < 4691249611844267 / 70368744177664 - 4691249611844267 / 140737488355328
    ∧ (polylinePoints64 [fin 1, fin 2, fin 3, fin 4] (fin 10) none none).map
        (fun p => numberToString64 p.1) = ["0", "33.333333333333336", "66.66666666666667", "100"] := by
  decide!

end Polyline
